import Mathlib

/-!
Verification development for `python-docstrings-change-inspector`.

Shallow embedding of `src/src/CodeInspector/code_inspector.py` (the
authoritative implementation; `src/docstringinspector/docstringinspector.py`
is a near duplicate of its range-locating half).  The Python `ast` collaborator
is modelled by the inductive `PyNode`; line numbers are 1-based `Nat`s exactly
as the `lineno` / `end_lineno` attributes the code reads.
-/

namespace CodeInspector

/-- Decorator reference shapes the code inspects: `ast.Name` (a simple
identifier, field `id`), `ast.Attribute` (an attribute access, field `attr`),
or any other decorator expression.  Each carries its `lineno`. -/
inductive Deco where
  | nameRef (id : String) (lineno : Nat)
  | attrRef (attrName : String) (lineno : Nat)
  | otherRef (lineno : Nat)
  deriving DecidableEq, Repr

/-- Line number of a decorator expression node. -/
def Deco.line : Deco → Nat
  | .nameRef _ l => l
  | .attrRef _ l => l
  | .otherRef l => l

/-- Statement nodes of the parsed tree, with the attributes
`code_inspector.py` reads: `name`, `lineno`, `end_lineno`, `decorator_list`,
`body`.  `exprStr` models an `ast.Expr` statement whose `value` is a string
`ast.Constant` (the docstring shape tested by `_get_docstring_node`); every
other non-definition statement is `otherStmt`, carrying the child statements
its blocks contain.  Definitions can only be nested through statement bodies
in Python, so walking statement children visits the same definition nodes,
in the same breadth-first order, as `ast.walk` does on the full tree. -/
inductive PyNode where
  | functionDef (name : String) (lineno end_lineno : Nat)
      (decorator_list : List Deco) (body : List PyNode)
  | asyncFunctionDef (name : String) (lineno end_lineno : Nat)
      (decorator_list : List Deco) (body : List PyNode)
  | classDef (name : String) (lineno end_lineno : Nat)
      (decorator_list : List Deco) (body : List PyNode)
  | exprStr (lineno end_lineno : Nat) (val : String)
  | otherStmt (lineno end_lineno : Nat) (children : List PyNode)

namespace PyNode

/-- The `lineno` attribute of a statement node. -/
def line : PyNode → Nat
  | .functionDef _ l _ _ _ => l
  | .asyncFunctionDef _ l _ _ _ => l
  | .classDef _ l _ _ _ => l
  | .exprStr l _ _ => l
  | .otherStmt l _ _ => l

/-- The `end_lineno` attribute of a statement node. -/
def endLine : PyNode → Nat
  | .functionDef _ _ e _ _ => e
  | .asyncFunctionDef _ _ e _ _ => e
  | .classDef _ _ e _ _ => e
  | .exprStr _ e _ => e
  | .otherStmt _ e _ => e

/-- The `decorator_list` attribute (empty for nodes that lack it). -/
def decorators : PyNode → List Deco
  | .functionDef _ _ _ d _ => d
  | .asyncFunctionDef _ _ _ d _ => d
  | .classDef _ _ _ d _ => d
  | _ => []

/-- The `body` attribute (empty for nodes that lack it). -/
def body : PyNode → List PyNode
  | .functionDef _ _ _ _ b => b
  | .asyncFunctionDef _ _ _ _ b => b
  | .classDef _ _ _ _ b => b
  | _ => []

/-- Child statements visited when walking the tree below a node. -/
def children : PyNode → List PyNode
  | .functionDef _ _ _ _ b => b
  | .asyncFunctionDef _ _ _ _ b => b
  | .classDef _ _ _ _ b => b
  | .exprStr _ _ _ => []
  | .otherStmt _ _ c => c

/-- True for the node kinds `_find_nodes` collects
(`ast.FunctionDef`, `ast.AsyncFunctionDef`, `ast.ClassDef`). -/
def isDefNode : PyNode → Bool
  | .functionDef .. => true
  | .asyncFunctionDef .. => true
  | .classDef .. => true
  | _ => false

/-- The `name` attribute of a definition node (empty string otherwise). -/
def defName : PyNode → String
  | .functionDef n _ _ _ _ => n
  | .asyncFunctionDef n _ _ _ _ => n
  | .classDef n _ _ _ _ => n
  | _ => ""

end PyNode

mutual

/-- Number of nodes in a subtree (used as breadth-first-walk fuel). -/
def nodeSize : PyNode → Nat
  | .functionDef _ _ _ _ b => 1 + nodesSize b
  | .asyncFunctionDef _ _ _ _ b => 1 + nodesSize b
  | .classDef _ _ _ _ b => 1 + nodesSize b
  | .exprStr _ _ _ => 1
  | .otherStmt _ _ c => 1 + nodesSize c

/-- Number of nodes in a forest. -/
def nodesSize : List PyNode → Nat
  | [] => 0
  | n :: rest => nodeSize n + nodesSize rest

end

theorem nodesSize_children_lt (n : PyNode) : nodesSize n.children < nodeSize n := by
  cases n <;> simp only [PyNode.children, nodeSize, nodesSize] <;> omega

theorem nodeSize_pos (n : PyNode) : 0 < nodeSize n := by
  cases n <;> simp only [nodeSize] <;> omega

theorem nodesSize_append (a b : List PyNode) :
    nodesSize (a ++ b) = nodesSize a + nodesSize b := by
  induction a with
  | nil => simp [nodesSize]
  | cons n rest ih => simp [nodesSize, ih]; omega

/-- Breadth-first queue walk with explicit fuel (the fuel makes the function
reduce in the kernel; `bfs` below instantiates it with the exact node count,
which `bfs_cons` shows is always enough). -/
def bfsAux : Nat → List PyNode → List PyNode
  | 0, _ => []
  | _, [] => []
  | fuel + 1, n :: rest => n :: bfsAux fuel (rest ++ n.children)

/-- Breadth-first enumeration of a forest's nodes: the visiting order of
`ast.walk` (a FIFO queue seeded with the roots, children appended as each
node is dequeued). -/
def bfs (q : List PyNode) : List PyNode := bfsAux (nodesSize q) q

theorem bfsAux_fuel (fuel fuel' : Nat) (q : List PyNode)
    (h : nodesSize q ≤ fuel) (h' : nodesSize q ≤ fuel') :
    bfsAux fuel q = bfsAux fuel' q := by
  induction fuel using Nat.strong_induction_on generalizing q fuel' with
  | _ fuel ih =>
    cases q with
    | nil => cases fuel <;> cases fuel' <;> simp [bfsAux]
    | cons n rest =>
      have hpos : 0 < nodeSize n := nodeSize_pos n
      have hq : nodesSize (n :: rest) = nodeSize n + nodesSize rest := rfl
      cases fuel with
      | zero => omega
      | succ f =>
        cases fuel' with
        | zero => omega
        | succ f' =>
          simp only [bfsAux]
          have hsz : nodesSize (rest ++ n.children) ≤ f := by
            have := nodesSize_children_lt n
            rw [nodesSize_append]; omega
          have hsz' : nodesSize (rest ++ n.children) ≤ f' := by
            have := nodesSize_children_lt n
            rw [nodesSize_append]; omega
          exact congrArg _ (ih f (by omega) _ _ hsz hsz')

theorem bfs_nil : bfs [] = [] := rfl

theorem bfs_cons (n : PyNode) (rest : List PyNode) :
    bfs (n :: rest) = n :: bfs (rest ++ n.children) := by
  have hpos : 0 < nodeSize n := nodeSize_pos n
  have hq : nodesSize (n :: rest) = nodeSize n + nodesSize rest := rfl
  obtain ⟨f, hf⟩ : ∃ f, nodesSize (n :: rest) = f + 1 :=
    ⟨nodesSize (n :: rest) - 1, by omega⟩
  unfold bfs
  rw [hf]
  simp only [bfsAux]
  congr 1
  apply bfsAux_fuel
  · have := nodesSize_children_lt n
    rw [nodesSize_append]; omega
  · exact le_rfl

/-- Depth-first (preorder) walk with fuel; preorder visits nodes in source
order when line numbers are properly nested. -/
def dfsAux : Nat → List PyNode → List PyNode
  | 0, _ => []
  | _, [] => []
  | fuel + 1, n :: rest => n :: dfsAux fuel (n.children ++ rest)

/-- Depth-first preorder enumeration of a forest's nodes. -/
def dfs (q : List PyNode) : List PyNode := dfsAux (nodesSize q) q

theorem dfsAux_fuel (fuel fuel' : Nat) (q : List PyNode)
    (h : nodesSize q ≤ fuel) (h' : nodesSize q ≤ fuel') :
    dfsAux fuel q = dfsAux fuel' q := by
  induction fuel using Nat.strong_induction_on generalizing q fuel' with
  | _ fuel ih =>
    cases q with
    | nil => cases fuel <;> cases fuel' <;> simp [dfsAux]
    | cons n rest =>
      have hpos : 0 < nodeSize n := nodeSize_pos n
      have hq : nodesSize (n :: rest) = nodeSize n + nodesSize rest := rfl
      cases fuel with
      | zero => omega
      | succ f =>
        cases fuel' with
        | zero => omega
        | succ f' =>
          simp only [dfsAux]
          have hsz : nodesSize (n.children ++ rest) ≤ f := by
            have := nodesSize_children_lt n
            rw [nodesSize_append]; omega
          have hsz' : nodesSize (n.children ++ rest) ≤ f' := by
            have := nodesSize_children_lt n
            rw [nodesSize_append]; omega
          exact congrArg _ (ih f (by omega) _ _ hsz hsz')

theorem dfs_nil : dfs [] = [] := rfl

theorem dfs_cons (n : PyNode) (rest : List PyNode) :
    dfs (n :: rest) = n :: dfs (n.children ++ rest) := by
  have hpos : 0 < nodeSize n := nodeSize_pos n
  have hq : nodesSize (n :: rest) = nodeSize n + nodesSize rest := rfl
  obtain ⟨f, hf⟩ : ∃ f, nodesSize (n :: rest) = f + 1 :=
    ⟨nodesSize (n :: rest) - 1, by omega⟩
  unfold dfs
  rw [hf]
  simp only [dfsAux]
  congr 1
  apply dfsAux_fuel
  · have := nodesSize_children_lt n
    rw [nodesSize_append]; omega
  · exact le_rfl

/-- Whether a node is a definition node whose identifier equals `name`
(the test inside the `_find_nodes` loop). -/
def matchesName (name : String) (n : PyNode) : Bool :=
  n.isDefNode && n.defName == name

/-- Embedding of `_find_nodes` (code_inspector.py lines 20-30): walk the whole
tree with `ast.walk` (breadth-first) and collect every
function/async-function/class node whose `name` equals the argument. -/
def find_nodes (tree : List PyNode) (name : String) : List PyNode :=
  (bfs tree).filter (matchesName name)

/-- Source-order (preorder) enumeration of the matching definition nodes;
the reference point for the spec's "in source order" claim. -/
def dfsMatches (tree : List PyNode) (name : String) : List PyNode :=
  (dfs tree).filter (matchesName name)

/-- Embedding of `_get_node_range` (lines 32-41): start at the first
decorator when decorators exist, else at the node's own line; end at
`end_lineno`. -/
def get_node_range (n : PyNode) : Nat × Nat :=
  match n.decorators with
  | [] => (n.line, n.endLine)
  | d :: _ => (d.line, n.endLine)

/-- Embedding of `_get_docstring_node` (lines 43-58): the first body
statement, provided it is an expression statement whose value is a string
constant. -/
def get_docstring_node (n : PyNode) : Option PyNode :=
  match n.body with
  | d@(.exprStr _ _ _) :: _ => some d
  | _ => none

/-- The overload test inside `get_signature_lines` / `get_git_history_body`:
some decorator is an `ast.Name` with `id == 'overload'` or an `ast.Attribute`
with `attr == 'overload'`. -/
def isOverloadDef (n : PyNode) : Bool :=
  n.decorators.any fun d =>
    match d with
    | .nameRef id _ => id == "overload"
    | .attrRef a _ => a == "overload"
    | .otherRef _ => false

/-- Embedding of `get_definition_lines` (lines 94-97). -/
def get_definition_lines (tree : List PyNode) (name : String) : List (Nat × Nat) :=
  (find_nodes tree name).map get_node_range

/-- Per-node body of the `get_signature_lines` loop (lines 112-134). -/
def signatureRangeOf (n : PyNode) : Nat × Nat :=
  let (start, stop) := get_node_range n
  if isOverloadDef n then (start, stop)
  else
    match n.body with
    | [] => (start, stop)
    | b0 :: _ =>
      let sigEnd := max start (b0.line - 1)
      let sigEnd := if b0.line = n.line then n.line else sigEnd
      (start, sigEnd)

/-- Embedding of `get_signature_lines` (lines 102-136). -/
def get_signature_lines (tree : List PyNode) (name : String) : List (Nat × Nat) :=
  (find_nodes tree name).map signatureRangeOf

/-- Per-node contribution of the `get_docstring_lines` loop (lines 146-149):
the docstring node's `(lineno, end_lineno)` when present.  Note the loop has
no overload test. -/
def docstringRangeOf (n : PyNode) : Option (Nat × Nat) :=
  (get_docstring_node n).map fun d => (d.line, d.endLine)

/-- Embedding of `get_docstring_lines` (lines 141-151). -/
def get_docstring_lines (tree : List PyNode) (name : String) : List (Nat × Nat) :=
  (find_nodes tree name).filterMap docstringRangeOf

/-- Per-node contribution of the `get_implementation_without_docstring_lines`
loop (lines 163-173). -/
def implWithoutDocRangesOf (n : PyNode) : List (Nat × Nat) :=
  let (start, stop) := get_node_range n
  match get_docstring_node n with
  | some d =>
    (if d.line > start then [(start, d.line - 1)] else []) ++
      (if d.endLine < stop then [(d.endLine + 1, stop)] else [])
  | none => [(start, stop)]

/-- Embedding of `get_implementation_without_docstring_lines`
(lines 156-175). -/
def get_implementation_without_docstring_lines
    (tree : List PyNode) (name : String) : List (Nat × Nat) :=
  (find_nodes tree name).flatMap implWithoutDocRangesOf

/-- Per-node contribution of the range computation inside
`get_git_history_body` (lines 192-213): overloads and empty bodies are
skipped; with a docstring the scan starts after it, otherwise at the first
body statement; the range ends at the node's `end_lineno` and is kept only
when `start_scan <= func_end`. -/
def bodyHistoryRangesOf (n : PyNode) : List (Nat × Nat) :=
  if isOverloadDef n then []
  else
    match n.body with
    | [] => []
    | b0 :: _ =>
      let funcEnd := n.endLine
      let startScan :=
        match get_docstring_node n with
        | some d => d.endLine + 1
        | none => b0.line
      if startScan ≤ funcEnd then [(startScan, funcEnd)] else []

/-- The line ranges `get_git_history_body` (lines 188-215) builds and hands
to `_run_git_log_L` (the history client). -/
def get_git_history_body_ranges (tree : List PyNode) (name : String) : List (Nat × Nat) :=
  (find_nodes tree name).flatMap bodyHistoryRangesOf

theorem bfs_append_eq (a b : List PyNode) :
    bfs (a ++ b) = a ++ bfs (b ++ a.flatMap PyNode.children) := by
  induction a generalizing b with
  | nil => simp
  | cons n a' ih =>
    rw [List.cons_append, bfs_cons, List.append_assoc, ih (b ++ n.children)]
    simp [List.append_assoc]

theorem bfs_levels (l : List PyNode) :
    bfs l = l ++ bfs (l.flatMap PyNode.children) := by
  have h := bfs_append_eq l []
  simpa using h

theorem nodesSize_flatMap_children (l : List PyNode) :
    nodesSize (l.flatMap PyNode.children) + l.length ≤ nodesSize l := by
  induction l with
  | nil => simp [nodesSize]
  | cons n rest ih =>
    rw [List.flatMap_cons, nodesSize_append]
    have h1 := nodesSize_children_lt n
    simp only [nodesSize, List.length_cons]
    omega

theorem nodesSize_eq_zero (l : List PyNode) (h : nodesSize l = 0) : l = [] := by
  cases l with
  | nil => rfl
  | cons n rest =>
    have := nodeSize_pos n
    simp only [nodesSize] at h
    omega

theorem dfs_append_aux (k : Nat) :
    ∀ (a b : List PyNode), nodesSize a ≤ k → dfs (a ++ b) = dfs a ++ dfs b := by
  induction k with
  | zero =>
    intro a b h
    have : a = [] := nodesSize_eq_zero a (by omega)
    subst this; simp [dfs_nil]
  | succ k ih =>
    intro a b h
    cases a with
    | nil => simp [dfs_nil]
    | cons n a' =>
      have hch := nodesSize_children_lt n
      have hsz : nodesSize (n :: a') = nodeSize n + nodesSize a' := rfl
      rw [List.cons_append, dfs_cons, dfs_cons, ← List.append_assoc,
        ih (n.children ++ a') b (by rw [nodesSize_append]; omega)]
      simp

theorem dfs_append (a b : List PyNode) : dfs (a ++ b) = dfs a ++ dfs b :=
  dfs_append_aux (nodesSize a) a b le_rfl

theorem dfs_eq_flatMap_aux (k : Nat) :
    ∀ (l : List PyNode), nodesSize l ≤ k →
      dfs l = l.flatMap fun n => n :: dfs n.children := by
  induction k with
  | zero =>
    intro l h
    have : l = [] := nodesSize_eq_zero l (by omega)
    subst this; simp [dfs_nil]
  | succ k ih =>
    intro l h
    cases l with
    | nil => simp [dfs_nil]
    | cons n rest =>
      have hch := nodesSize_children_lt n
      have hpos := nodeSize_pos n
      have hsz : nodesSize (n :: rest) = nodeSize n + nodesSize rest := rfl
      rw [dfs_cons, dfs_append, List.flatMap_cons, ih rest (by omega)]
      simp

theorem dfs_eq_flatMap (l : List PyNode) :
    dfs l = l.flatMap fun n => n :: dfs n.children :=
  dfs_eq_flatMap_aux (nodesSize l) l le_rfl

theorem dfs_flatMap_children (l : List PyNode) :
    dfs (l.flatMap PyNode.children) = l.flatMap fun n => dfs n.children := by
  induction l with
  | nil => simp [dfs_nil]
  | cons n rest ih => rw [List.flatMap_cons, dfs_append, ih, List.flatMap_cons]

theorem self_append_dfs_children_perm (l : List PyNode) :
    (l ++ l.flatMap fun n => dfs n.children).Perm
      (l.flatMap fun n => n :: dfs n.children) := by
  induction l with
  | nil => simp
  | cons n rest ih =>
    rw [List.cons_append, List.flatMap_cons, List.flatMap_cons]
    refine List.Perm.cons n ?_
    have s1 : (rest ++ (dfs n.children ++ rest.flatMap fun m => dfs m.children)).Perm
        ((dfs n.children ++ rest) ++ rest.flatMap fun m => dfs m.children) := by
      rw [← List.append_assoc]
      exact List.Perm.append_right _ List.perm_append_comm
    have s2 : ((dfs n.children ++ rest) ++ rest.flatMap fun m => dfs m.children).Perm
        (dfs n.children ++ rest.flatMap fun m => m :: dfs m.children) := by
      rw [List.append_assoc]
      exact List.Perm.append_left _ ih
    exact s1.trans s2

theorem bfs_perm_dfs_aux (k : Nat) :
    ∀ (l : List PyNode), nodesSize l ≤ k → (bfs l).Perm (dfs l) := by
  induction k with
  | zero =>
    intro l h
    have : l = [] := nodesSize_eq_zero l (by omega)
    subst this; simp [bfs_nil, dfs_nil]
  | succ k ih =>
    intro l h
    cases l with
    | nil => simp [bfs_nil, dfs_nil]
    | cons n rest =>
      set l := n :: rest with hl
      have hlen : 0 < l.length := by simp [hl]
      have hflat := nodesSize_flatMap_children l
      have h1 : (bfs (l.flatMap PyNode.children)).Perm (dfs (l.flatMap PyNode.children)) :=
        ih _ (by omega)
      rw [bfs_levels l, dfs_eq_flatMap l]
      refine List.Perm.trans (List.Perm.append_left l h1) ?_
      rw [dfs_flatMap_children]
      exact self_append_dfs_children_perm l

theorem bfs_perm_dfs (l : List PyNode) : (bfs l).Perm (dfs l) :=
  bfs_perm_dfs_aux (nodesSize l) l le_rfl

theorem flatMap_filter_single (p : PyNode → Bool) (l : List PyNode) :
    (l.flatMap fun n => List.filter p [n]) = l.filter p := by
  induction l with
  | nil => simp
  | cons n rest ih =>
    rw [List.flatMap_cons, ih]
    by_cases h : p n <;> simp [List.filter_cons, h]

/-- Concrete counterexample tree for C2: a definition named `g` nested inside
`f` at line 2, and a top-level definition named `g` at line 4. -/
def c2Tree : List PyNode :=
  [.functionDef "f" 1 3 [] [.functionDef "g" 2 3 [] [.otherStmt 3 3 []]],
   .functionDef "g" 4 5 [] [.otherStmt 5 5 []]]

/-- Claim C2 as stated is false: on `c2Tree`, `_find_nodes "g"` returns the
top-level line-4 definition before the nested line-2 definition (because
`ast.walk` is breadth-first), so the result is not in ascending source
order. -/
theorem c2_counterexample :
    ((find_nodes c2Tree "g").map PyNode.line = [4, 2]) ∧
      ¬ List.Chain' (· ≤ ·) ((find_nodes c2Tree "g").map PyNode.line) := by
  refine ⟨rfl, ?_⟩
  rw [show (find_nodes c2Tree "g").map PyNode.line = [4, 2] from rfl]
  simp [List.chain'_cons]

/-- Amended C2: `_find_nodes` returns exactly the function/async-function/
class nodes anywhere in the tree whose identifier equals the name, never
deduplicated — the result is a permutation of the source-ordered (preorder)
match list — but in breadth-first order rather than source order; it equals
the source-ordered list whenever no matching definition sits below the top
level of the tree. -/
theorem c2_find_nodes_exact_matches_bfs_order (tree : List PyNode) (name : String) :
    (find_nodes tree name).Perm (dfsMatches tree name) ∧
      ((∀ n ∈ tree, dfsMatches n.children name = []) →
        find_nodes tree name = dfsMatches tree name) := by
  constructor
  · exact List.Perm.filter _ (bfs_perm_dfs tree)
  · intro hnone
    have hdeep : ∀ n ∈ tree, List.filter (matchesName name) (dfs n.children) = [] := by
      intro n hn
      exact hnone n hn
    have hbelow : List.filter (matchesName name) (dfs (tree.flatMap PyNode.children)) = [] := by
      rw [dfs_flatMap_children, List.filter_flatMap]
      apply List.flatMap_eq_nil_iff.mpr
      intro n hn
      exact hdeep n hn
    have hbfsbelow : List.filter (matchesName name) (bfs (tree.flatMap PyNode.children)) = [] := by
      have hperm := List.Perm.filter (matchesName name) (bfs_perm_dfs (tree.flatMap PyNode.children))
      rw [hbelow] at hperm
      exact hperm.eq_nil
    have hl : find_nodes tree name = tree.filter (matchesName name) := by
      unfold find_nodes
      rw [bfs_levels, List.filter_append, hbfsbelow, List.append_nil]
    have hr : dfsMatches tree name = tree.filter (matchesName name) := by
      unfold dfsMatches
      rw [dfs_eq_flatMap, List.filter_flatMap]
      have : (tree.flatMap fun n => List.filter (matchesName name) (n :: dfs n.children)) =
          tree.flatMap fun n => List.filter (matchesName name) [n] := by
        apply List.flatMap_congr
        intro n hn
        rw [show (n :: dfs n.children) = [n] ++ dfs n.children from rfl,
          List.filter_append, hdeep n hn, List.append_nil]
      rw [this, flatMap_filter_single]
    rw [hl, hr]

/-- Witness for the amended C2: on a tree whose two `g` definitions are both
top-level, `_find_nodes` agrees with the source-ordered match list. -/
def c2wTree : List PyNode :=
  [.functionDef "g" 1 2 [] [.otherStmt 2 2 []],
   .functionDef "h" 3 4 [] [.otherStmt 4 4 []],
   .functionDef "g" 5 6 [] [.otherStmt 6 6 []]]

theorem c2_witness : find_nodes c2wTree "g" = dfsMatches c2wTree "g" :=
  (c2_find_nodes_exact_matches_bfs_order c2wTree "g").2 (by
    intro n hn
    fin_cases hn <;> rfl)

/-- Concrete counterexample for C3: the only definition of `f` is
overload-marked and its first body statement is a bare string literal. -/
def c3Node : PyNode :=
  .functionDef "f" 2 4 [.nameRef "overload" 1] [.exprStr 3 3 "doc", .otherStmt 4 4 []]

/-- The tree holding `c3Node`. -/
def c3Tree : List PyNode := [c3Node]

/-- Claim C3 as stated is false: `get_docstring_lines` has no overload test,
so an overload-marked definition whose first body statement is a string
literal does contribute its docstring range. -/
theorem c3_counterexample :
    isOverloadDef c3Node = true ∧ find_nodes c3Tree "f" = [c3Node] ∧
      get_docstring_lines c3Tree "f" = [(3, 3)] ∧
      get_docstring_lines c3Tree "f" ≠ [] := by
  refine ⟨rfl, rfl, rfl, ?_⟩
  rw [show get_docstring_lines c3Tree "f" = [(3, 3)] from rfl]
  simp

/-- Amended C3: `get_docstring_lines` contributes the docstring's
`(lineno, end_lineno)` range for every matched definition whose first body
statement is a bare string-literal expression, regardless of overload
marking — overload-marked definitions are inspected for documentation like
any other. -/
theorem c3_docstring_range_ignores_overload (tree : List PyNode) (name : String)
    (n : PyNode) (hn : n ∈ find_nodes tree name)
    (d : PyNode) (hd : get_docstring_node n = some d) :
    (d.line, d.endLine) ∈ get_docstring_lines tree name := by
  unfold get_docstring_lines
  exact List.mem_filterMap.mpr ⟨n, hn, by simp [docstringRangeOf, hd]⟩

theorem c3_witness : ((3 : Nat), (3 : Nat)) ∈ get_docstring_lines c3Tree "f" :=
  c3_docstring_range_ignores_overload c3Tree "f" c3Node
    (by rw [show find_nodes c3Tree "f" = [c3Node] from rfl]; exact List.mem_singleton.mpr rfl)
    (.exprStr 3 3 "doc") rfl

/-- Concrete counterexample for C4: a non-overload definition with no
docstring whose first body statement begins after the `def` line. -/
def c4Node : PyNode :=
  .functionDef "q" 1 3 [] [.otherStmt 2 2 [], .otherStmt 3 3 []]

/-- The tree holding `c4Node`. -/
def c4Tree : List PyNode := [c4Node]

/-- Claim C4 as stated is false: with no doc comment,
`get_implementation_without_docstring_lines` emits the full definition range
`(1, 3)`, but `get_git_history_body` submits `(2, 3)` — it starts at the
first body statement, not at the definition start. -/
theorem c4_counterexample :
    isOverloadDef c4Node = false ∧
      get_git_history_body_ranges c4Tree "q" = [(2, 3)] ∧
      get_implementation_without_docstring_lines c4Tree "q" = [(1, 3)] ∧
      get_git_history_body_ranges c4Tree "q" ≠
        get_implementation_without_docstring_lines c4Tree "q" := by
  refine ⟨rfl, rfl, rfl, ?_⟩
  rw [show get_git_history_body_ranges c4Tree "q" = [(2, 3)] from rfl,
    show get_implementation_without_docstring_lines c4Tree "q" = [(1, 3)] from rfl]
  simp

/-- Amended C4: the body-history query does not submit the
`bodyWithoutDocRanges` of section 4.1.  Per non-overload definition with a
non-empty body it submits one range ending at the node's `end_lineno`:
after the doc comment when one exists (dropping the pre-doc sub-range
entirely), else from the first body statement (not the definition start);
overload-marked and empty-body definitions are skipped.  Every submitted
range is thus a sub-range, with identical end line, of some range computed
by `get_implementation_without_docstring_lines`, provided body statements do
not start before the definition range. -/
theorem c4_body_query_subranges (tree : List PyNode) (name : String)
    (hb : ∀ n ∈ find_nodes tree name, ∀ b ∈ n.body, (get_node_range n).1 ≤ b.line) :
    ∀ r ∈ get_git_history_body_ranges tree name,
      ∃ r' ∈ get_implementation_without_docstring_lines tree name,
        r'.1 ≤ r.1 ∧ r'.2 = r.2 := by
  intro r hr
  unfold get_git_history_body_ranges at hr
  obtain ⟨n, hn, hrn⟩ := List.mem_flatMap.mp hr
  unfold bodyHistoryRangesOf at hrn
  by_cases hov : isOverloadDef n
  · simp [hov] at hrn
  · simp only [hov, if_false, Bool.false_eq_true] at hrn
    cases hbody : n.body with
    | nil => rw [hbody] at hrn; simp at hrn
    | cons b0 brest =>
      rw [hbody] at hrn
      simp only at hrn
      rcases hst : get_node_range n with ⟨s, t⟩
      cases hdoc : get_docstring_node n with
      | some d =>
        rw [hdoc] at hrn
        simp only at hrn
        by_cases hle : d.endLine + 1 ≤ n.endLine
        · rw [if_pos hle] at hrn
          have hreq : r = (d.endLine + 1, n.endLine) := List.mem_singleton.mp hrn
          refine ⟨(d.endLine + 1, n.endLine), ?_, by rw [hreq]; exact ⟨le_rfl, rfl⟩⟩
          unfold get_implementation_without_docstring_lines
          refine List.mem_flatMap.mpr ⟨n, hn, ?_⟩
          unfold implWithoutDocRangesOf
          rw [hst, hdoc]
          have hlt : d.endLine < t := by
            have : (get_node_range n).2 = n.endLine := by
              unfold get_node_range
              cases n.decorators <;> rfl
            rw [hst] at this
            simp at this
            omega
          have ht : t = n.endLine := by
            have : (get_node_range n).2 = n.endLine := by
              unfold get_node_range
              cases n.decorators <;> rfl
            rw [hst] at this
            simpa using this
          simp only [hlt, if_true]
          rw [ht]
          exact List.mem_append_right _ (List.mem_singleton.mpr rfl)
        · rw [if_neg hle] at hrn
          simp at hrn
      | none =>
        rw [hdoc] at hrn
        simp only at hrn
        by_cases hle : b0.line ≤ n.endLine
        · rw [if_pos hle] at hrn
          have hreq : r = (b0.line, n.endLine) := List.mem_singleton.mp hrn
          refine ⟨(s, t), ?_, ?_⟩
          · unfold get_implementation_without_docstring_lines
            refine List.mem_flatMap.mpr ⟨n, hn, ?_⟩
            unfold implWithoutDocRangesOf
            rw [hst, hdoc]
            exact List.mem_singleton.mpr rfl
          · have hs : s ≤ b0.line := by
              have := hb n hn b0 (by rw [hbody]; exact List.mem_cons_self b0 brest)
              rw [hst] at this
              simpa using this
            have ht : t = n.endLine := by
              have : (get_node_range n).2 = n.endLine := by
                unfold get_node_range
                cases n.decorators <;> rfl
              rw [hst] at this
              simpa using this
            rw [hreq]
            exact ⟨hs, by simp [ht]⟩
        · rw [if_neg hle] at hrn
          simp at hrn

theorem c4_witness :
    ∃ r' ∈ get_implementation_without_docstring_lines c4Tree "q",
      r'.1 ≤ (2 : Nat) ∧ r'.2 = (3 : Nat) :=
  c4_body_query_subranges c4Tree "q"
    (by
      intro n hn b hbmem
      rw [show find_nodes c4Tree "q" = [c4Node] from rfl] at hn
      rw [List.mem_singleton.mp hn] at hbmem ⊢
      fin_cases hbmem <;> decide)
    (2, 3)
    (by rw [show get_git_history_body_ranges c4Tree "q" = [(2, 3)] from rfl]
        exact List.mem_singleton.mpr rfl)

/-- Concrete counterexample for C6: a decorated single-line-form definition
(decorator on line 1, `def` keyword and first body statement on line 2). -/
def c6Node : PyNode :=
  .functionDef "f" 2 2 [.nameRef "dec" 1] [.otherStmt 2 2 []]

/-- The tree holding `c6Node`. -/
def c6Tree : List PyNode := [c6Node]

/-- Claim C6 as stated is false: for a decorated single-line-form definition
the signature range starts at the decorator line, not at the definition
keyword's line, so it is not the collapsed one-line range the claim
describes. -/
theorem c6_counterexample :
    isOverloadDef c6Node = false ∧ c6Node.body.head?.map PyNode.line = some c6Node.line ∧
      get_signature_lines c6Tree "f" = [(1, 2)] ∧
      ((1 : Nat), (2 : Nat)) ≠ (c6Node.line, c6Node.line) := by
  refine ⟨rfl, rfl, rfl, ?_⟩
  rw [show c6Node.line = 2 from rfl]
  simp

/-- Amended C6: for a non-overload definition with a non-empty body whose
first body statement begins on the definition keyword's line, the signature
range ends at that line but starts at the definition range's start (the
first decorator's line when decorators exist); it collapses to exactly the
one definition-keyword line only when the definition has no decorators. -/
theorem c6_single_line_signature (tree : List PyNode) (name : String)
    (n : PyNode) (b0 : PyNode) (brest : List PyNode)
    (hn : n ∈ find_nodes tree name)
    (hov : isOverloadDef n = false)
    (hbody : n.body = b0 :: brest)
    (hline : b0.line = n.line) :
    signatureRangeOf n = ((get_node_range n).1, n.line) ∧
      signatureRangeOf n ∈ get_signature_lines tree name ∧
      (n.decorators = [] → signatureRangeOf n = (n.line, n.line)) := by
  rcases hst : get_node_range n with ⟨s, t⟩
  have h1 : signatureRangeOf n = (s, n.line) := by
    unfold signatureRangeOf
    rw [hst, hbody]
    simp [hov, hline]
  refine ⟨by simp [h1, hst], ?_, ?_⟩
  · exact List.mem_map.mpr ⟨n, hn, rfl⟩
  · intro hdec
    have hs : s = n.line := by
      have : (get_node_range n).1 = n.line := by
        unfold get_node_range
        rw [hdec]
      rw [hst] at this
      simpa using this
    rw [h1, hs]

/-- Witness tree for the amended C6: an undecorated single-line definition
`def g(): pass` on line 3. -/
def c6wNode : PyNode := .functionDef "g" 3 3 [] [.otherStmt 3 3 []]

/-- The tree holding `c6wNode`. -/
def c6wTree : List PyNode := [c6wNode]

theorem c6_witness : signatureRangeOf c6wNode = ((3 : Nat), (3 : Nat)) :=
  (c6_single_line_signature c6wTree "g" c6wNode (.otherStmt 3 3 []) []
    (by rw [show find_nodes c6wTree "g" = [c6wNode] from rfl]
        exact List.mem_singleton.mpr rfl)
    rfl rfl rfl).2.2 rfl

/-- Node-local well-formedness of parser-produced positions, as assumed by
claim C8: 1-based line numbers, decorators at or before the definition
keyword line, body statements inside the definition's span. -/
def wfNode (n : PyNode) : Prop :=
  1 ≤ n.line ∧ n.line ≤ n.endLine ∧
    (∀ d ∈ n.decorators, 1 ≤ d.line ∧ d.line ≤ n.line) ∧
    (∀ b ∈ n.body, n.line ≤ b.line ∧ b.line ≤ b.endLine ∧ b.endLine ≤ n.endLine)

instance wfNodeDecidable (n : PyNode) : Decidable (wfNode n) :=
  decidable_of_iff
    (1 ≤ n.line ∧ n.line ≤ n.endLine ∧
      (∀ d ∈ n.decorators, 1 ≤ d.line ∧ d.line ≤ n.line) ∧
      (∀ b ∈ n.body, n.line ≤ b.line ∧ b.line ≤ b.endLine ∧ b.endLine ≤ n.endLine))
    Iff.rfl

theorem wf_get_node_range (n : PyNode) (h : wfNode n) :
    1 ≤ (get_node_range n).1 ∧ (get_node_range n).1 ≤ (get_node_range n).2 := by
  obtain ⟨h1, h2, hdec, _⟩ := h
  unfold get_node_range
  cases hd : n.decorators with
  | nil => exact ⟨h1, h2⟩
  | cons d ds =>
    have := hdec d (by rw [hd]; exact List.mem_cons_self d ds)
    exact ⟨this.1, le_trans this.2 h2⟩

theorem get_docstring_node_mem (n : PyNode) (d : PyNode)
    (hd : get_docstring_node n = some d) : d ∈ n.body := by
  unfold get_docstring_node at hd
  cases hb : n.body with
  | nil => rw [hb] at hd; exact Option.noConfusion hd
  | cons b0 rest =>
    rw [hb] at hd
    cases b0 with
    | exprStr l e v =>
      have h2 := Option.some.inj hd
      rw [← h2]
      exact List.mem_cons_self _ _
    | functionDef nm l e dl bd => exact Option.noConfusion hd
    | asyncFunctionDef nm l e dl bd => exact Option.noConfusion hd
    | classDef nm l e dl bd => exact Option.noConfusion hd
    | otherStmt l e ch => exact Option.noConfusion hd

theorem wf_docstring_node (n : PyNode) (d : PyNode) (h : wfNode n)
    (hd : get_docstring_node n = some d) :
    n.line ≤ d.line ∧ d.line ≤ d.endLine ∧ d.endLine ≤ n.endLine :=
  h.2.2.2 d (get_docstring_node_mem n d hd)

/-- C8: under the parser position contract, every range emitted by the four
range operations satisfies `1 ≤ start ≤ end`. -/
theorem c8_ranges_well_formed (tree : List PyNode) (name : String)
    (hwf : ∀ n ∈ bfs tree, wfNode n) :
    ∀ r ∈ get_definition_lines tree name ++ get_signature_lines tree name ++
        get_docstring_lines tree name ++
        get_implementation_without_docstring_lines tree name,
      1 ≤ r.1 ∧ r.1 ≤ r.2 := by
  have hwfn : ∀ n ∈ find_nodes tree name, wfNode n := by
    intro n hn
    exact hwf n (List.mem_filter.mp hn).1
  intro r hr
  rw [List.mem_append] at hr
  rcases hr with hr | hr4
  rotate_left
  · -- implementation-without-docstring ranges
    obtain ⟨n, hn, hrn⟩ := List.mem_flatMap.mp hr4
    have hw := hwfn n hn
    rcases hst : get_node_range n with ⟨s, t⟩
    have hrange := wf_get_node_range n hw
    rw [hst] at hrange
    simp only at hrange
    unfold implWithoutDocRangesOf at hrn
    rw [hst] at hrn
    cases hdoc : get_docstring_node n with
    | some d =>
      rw [hdoc] at hrn
      have hdw := wf_docstring_node n d hw hdoc
      simp only at hrn
      rw [List.mem_append] at hrn
      rcases hrn with hpre | hpost
      · by_cases hgt : d.line > s
        · rw [if_pos hgt] at hpre
          rw [List.mem_singleton.mp hpre]
          constructor
          · exact hrange.1
          · simp only
            omega
        · rw [if_neg hgt] at hpre
          simp at hpre
      · by_cases hlt : d.endLine < t
        · rw [if_pos hlt] at hpost
          rw [List.mem_singleton.mp hpost]
          constructor
          · simp only
            omega
          · simp only
            omega
        · rw [if_neg hlt] at hpost
          simp at hpost
    | none =>
      rw [hdoc] at hrn
      rw [List.mem_singleton.mp hrn]
      exact hrange
  rw [List.mem_append] at hr
  rcases hr with hr | hr3
  rotate_left
  · -- docstring ranges
    obtain ⟨n, hn, hrn⟩ := List.mem_filterMap.mp hr3
    have hw := hwfn n hn
    unfold docstringRangeOf at hrn
    cases hdoc : get_docstring_node n with
    | some d =>
      rw [hdoc] at hrn
      have hdw := wf_docstring_node n d hw hdoc
      have hr1 : r = (d.line, d.endLine) := by
        simp at hrn
        exact hrn.symm
      rw [hr1]
      have := hw.1
      constructor
      · simp only
        omega
      · simp only
        omega
    | none => rw [hdoc] at hrn; simp at hrn
  rw [List.mem_append] at hr
  rcases hr with hr1 | hr2
  · -- definition ranges
    obtain ⟨n, hn, hrn⟩ := List.mem_map.mp hr1
    have hw := hwfn n hn
    rw [← hrn]
    exact wf_get_node_range n hw
  · -- signature ranges
    obtain ⟨n, hn, hrn⟩ := List.mem_map.mp hr2
    have hw := hwfn n hn
    rcases hst : get_node_range n with ⟨s, t⟩
    have hrange := wf_get_node_range n hw
    rw [hst] at hrange
    by_cases hov : isOverloadDef n
    · have heq : signatureRangeOf n = (s, t) := by
        unfold signatureRangeOf
        rw [hst]
        simp [hov]
      rw [heq] at hrn
      rw [← hrn]
      exact hrange
    · cases hbody : n.body with
      | nil =>
        have heq : signatureRangeOf n = (s, t) := by
          unfold signatureRangeOf
          rw [hst, hbody]
          simp [hov]
        rw [heq] at hrn
        rw [← hrn]
        exact hrange
      | cons b0 brest =>
        have hb0 := hw.2.2.2 b0 (by rw [hbody]; exact List.mem_cons_self b0 brest)
        have hsn : s ≤ n.line := by
          unfold get_node_range at hst
          cases hd : n.decorators with
          | nil =>
            rw [hd] at hst
            simp at hst
            omega
          | cons dd dds =>
            rw [hd] at hst
            simp at hst
            have := hw.2.2.1 dd (by rw [hd]; exact List.mem_cons_self dd dds)
            omega
        by_cases hl : b0.line = n.line
        · have heq : signatureRangeOf n = (s, n.line) := by
            unfold signatureRangeOf
            rw [hst, hbody]
            simp [hov, hl]
          rw [heq] at hrn
          rw [← hrn]
          exact ⟨hrange.1, hsn⟩
        · have heq : signatureRangeOf n = (s, max s (b0.line - 1)) := by
            unfold signatureRangeOf
            rw [hst, hbody]
            simp [hov, hl]
          rw [heq] at hrn
          rw [← hrn]
          exact ⟨hrange.1, le_max_left _ _⟩

/-- Witness tree for C8: a decorated definition with a docstring. -/
def c8Tree : List PyNode :=
  [.functionDef "f" 2 5 [.nameRef "dec" 1] [.exprStr 3 3 "doc", .otherStmt 4 5 []]]

theorem c8_witness :
    (1 ≤ (4 : Nat) ∧ (4 : Nat) ≤ 5) ∧
      ((4 : Nat), (5 : Nat)) ∈ get_definition_lines c8Tree "f" ++
        get_signature_lines c8Tree "f" ++ get_docstring_lines c8Tree "f" ++
        get_implementation_without_docstring_lines c8Tree "f" := by
  have hmem : ((4 : Nat), (5 : Nat)) ∈ get_definition_lines c8Tree "f" ++
      get_signature_lines c8Tree "f" ++ get_docstring_lines c8Tree "f" ++
      get_implementation_without_docstring_lines c8Tree "f" := by decide
  exact ⟨c8_ranges_well_formed c8Tree "f" (by decide) (4, 5) hmem, hmem⟩

/-! Parser / history layer.  Embeds `parse_git_log_to_dict`,
`_get_latest_commit_info` and `check_function_consistency`.  Python strings
are Lean `String`s handled at the `List Char` level. -/

/-- Line-break characters recognised by Python `str.splitlines`. -/
def isLineBreak (c : Char) : Bool :=
  c = '\n' || c = '\r' || c = '\x0b' || c = '\x0c' ||
    c = '\x1c' || c = '\x1d' || c = '\x1e' || c = '\x85' ||
    c = '\u2028' || c = '\u2029'

/-- ASCII whitespace, the subset of Python's whitespace class relevant here
(used both for `str.strip` and for the `\s` class of the `re` patterns; the
exotic Unicode whitespace characters never occur in the histories and date
strings the tool manipulates and are not modelled). -/
def isPyWs (c : Char) : Bool :=
  c = ' ' || c = '\t' || c = '\n' || c = '\r' || c = '\x0b' || c = '\x0c'

/-- Python `str.strip()` on a character list. -/
def pyStripL (l : List Char) : List Char :=
  ((l.dropWhile isPyWs).reverse.dropWhile isPyWs).reverse

/-- Python `str.strip()`. -/
def pyStrip (s : String) : String := String.mk (pyStripL s.data)

/-- Worker for `pySplitlines`; `acc` is the current line reversed
(`\r\n` counts as a single line break; a break at the very end produces no
trailing empty line). -/
def pySplitlinesGo (acc : List Char) : List Char → List (List Char)
  | [] => [acc.reverse]
  | c :: rest =>
    if isLineBreak c then
      match rest with
      | [] => [acc.reverse]
      | r2 :: rest2 =>
        if c = '\r' && r2 = '\n' then
          acc.reverse :: (if rest2.isEmpty then [] else pySplitlinesGo [] rest2)
        else acc.reverse :: pySplitlinesGo [] (r2 :: rest2)
    else pySplitlinesGo (c :: acc) rest

/-- Python `str.splitlines()` on a character list (`""` gives `[]`, a
trailing line break produces no trailing empty line). -/
def pySplitlines (l : List Char) : List (List Char) :=
  match l with
  | [] => []
  | _ => pySplitlinesGo [] l

/-- Worker for `splitOnNL`. -/
def splitOnNLGo (acc : List Char) : List Char → List (List Char)
  | [] => [acc.reverse]
  | c :: rest =>
    if c = '\n' then acc.reverse :: splitOnNLGo [] rest
    else splitOnNLGo (c :: acc) rest

/-- Python `str.split("\n")` on a character list (always non-empty;
`""` gives `[""]`). -/
def splitOnNL (l : List Char) : List (List Char) := splitOnNLGo [] l

/-- Python `"\n".join` on character-list lines. -/
def joinNL : List (List Char) → List Char
  | [] => []
  | [l] => l
  | l :: l2 :: rest => l ++ '\n' :: joinNL (l2 :: rest)

/-- Python `"\n".join` on strings. -/
def joinLinesNL (ls : List String) : String := String.mk (joinNL (ls.map String.data))

/-- Python `s.split("\n")` on strings. -/
def splitLinesNL (s : String) : List String := (splitOnNL s.data).map String.mk

/-- Python `s.splitlines()` on strings. -/
def pySplitlinesStr (s : String) : List String := (pySplitlines s.data).map String.mk

/-- Lower-case hexadecimal digit (the `[0-9a-f]` class of the commit
pattern, compiled without `re.IGNORECASE`). -/
def isHexLower (c : Char) : Bool :=
  ('0' ≤ c && c ≤ '9') || ('a' ≤ c && c ≤ 'f')

/-- Take exactly `n` lower-case hex characters. -/
def takeHexN : Nat → List Char → Option (List Char × List Char)
  | 0, l => some ([], l)
  | _ + 1, [] => none
  | n + 1, c :: rest =>
    if isHexLower c then
      match takeHexN n rest with
      | some (hex, rem) => some (c :: hex, rem)
      | none => none
    else none

/-- Body of the commit matcher after the literal `commit` prefix:
one-or-more whitespace, then forty lower-case hex digits captured.  (No
backtracking is needed: a whitespace character is never a hex digit.) -/
def matchCommitCore : List Char → Option (List Char)
  | c :: rest2 =>
    if isPyWs c then
      match takeHexN 40 (rest2.dropWhile isPyWs) with
      | some (hex, _) => some hex
      | none => none
    else none
  | [] => none

/-- Embedding of `commit_pattern = re.compile(r'^commit\s+([0-9a-f]{40})')`
applied with `.match`: literal `commit`, then `matchCommitCore`; trailing
characters are ignored. -/
def matchCommitL : List Char → Option (List Char)
  | 'c' :: 'o' :: 'm' :: 'm' :: 'i' :: 't' :: rest => matchCommitCore rest
  | _ => none

/-- String-level wrapper of `matchCommitL`. -/
def matchCommit (line : String) : Option String :=
  (matchCommitL line.data).map String.mk

/-- Embedding of `diff_start_pattern = re.compile(r'^diff\s--git')`:
literal `diff`, exactly one whitespace, literal `--git`. -/
def matchDiffStartL : List Char → Bool
  | 'd' :: 'i' :: 'f' :: 'f' :: c :: '-' :: '-' :: 'g' :: 'i' :: 't' :: _ => isPyWs c
  | _ => false

/-- String-level wrapper of `matchDiffStartL`. -/
def matchDiffStart (line : String) : Bool := matchDiffStartL line.data

/-- Split a list at the last occurrence of `c`: returns the parts strictly
before and strictly after that occurrence. -/
def splitAtLastChar (c : Char) : List Char → Option (List Char × List Char)
  | [] => none
  | x :: xs =>
    match splitAtLastChar c xs with
    | some (p, q) => some (x :: p, q)
    | none => if x = c then some ([], xs) else none

/-- Embedding of `author_pattern = re.compile(r'^Author:\s+(.+)\s+<(.+)>')`
with the `.strip()` the call site applies to both captured groups.  The
greedy first group makes the regex split at the last `<` preceded by
whitespace; the greedy second group extends to the last `>`.  (On lines
whose last `<` fails those side conditions the regex engine would backtrack
to an earlier `<`; such lines never arise from the single-`<` author lines
of git output.)  Returns the stripped `(name, email)` captures. -/
def matchAuthorCore (u : List Char) : Option (String × String) :=
  match splitAtLastChar '<' u with
  | some (p, q) =>
    if decide (3 ≤ p.length) && (p.head?.elim false isPyWs) &&
        (p.getLast?.elim false isPyWs) then
      match splitAtLastChar '>' q with
      | some (g2, _) =>
        if g2.isEmpty then none
        else some (String.mk (pyStripL ((p.drop 1).dropLast)), String.mk (pyStripL g2))
      | none => none
    else none
  | none => none

/-- The literal `Author:` prefix, then `matchAuthorCore`. -/
def matchAuthorL (l : List Char) : Option (String × String) :=
  match l with
  | 'A' :: 'u' :: 't' :: 'h' :: 'o' :: 'r' :: ':' :: u => matchAuthorCore u
  | _ => none

/-- String-level wrapper of `matchAuthorL`. -/
def matchAuthor (line : String) : Option (String × String) := matchAuthorL line.data

/-- Embedding of `date_pattern = re.compile(r'^Date:\s+(.+)')` with the
`.strip()` the call site applies to the captured group. -/
def matchDateCore : List Char → Option String
  | c :: rest2 =>
    if isPyWs c && !rest2.isEmpty then some (String.mk (pyStripL rest2))
    else none
  | [] => none

/-- The literal `Date:` prefix, then `matchDateCore`. -/
def matchDateL (l : List Char) : Option String :=
  match l with
  | 'D' :: 'a' :: 't' :: 'e' :: ':' :: rest => matchDateCore rest
  | _ => none

/-- String-level wrapper of `matchDateL`. -/
def matchDate (line : String) : Option String := matchDateL line.data

/-- A finished revision record, i.e. one value of the dictionary built by
`parse_git_log_to_dict` (message and diff joined into single strings). -/
structure CommitData where
  author_name : Option String
  author_email : Option String
  date : Option String
  message : String
  diff : String
  deriving DecidableEq, Repr

/-- The in-progress `current_data` of the parsing loop: message and diff
still accumulated as line lists. -/
structure PartialData where
  author_name : Option String
  author_email : Option String
  date : Option String
  message : List String
  diff : List String
  deriving DecidableEq, Repr

/-- The `state` variable of `parse_git_log_to_dict`. -/
inductive PMode where
  | header
  | message
  | diff
  deriving DecidableEq, Repr

/-- Loop state of `parse_git_log_to_dict`: finished records in insertion
order (a Python 3.7+ dict), the pending `(current_hash, current_data)`, and
the state-machine mode. -/
structure ParseState where
  commits : List (String × CommitData)
  cur : Option (String × PartialData)
  mode : PMode
  deriving DecidableEq, Repr

/-- Fresh `current_data` created when a commit line is seen. -/
def emptyPartial : PartialData := ⟨none, none, none, [], []⟩

/-- Python-dict assignment `commits[k] = v`: updates in place when the key
exists (keeping its position), else appends. -/
def dictInsert (k : String) (v : CommitData)
    (d : List (String × CommitData)) : List (String × CommitData) :=
  if d.any fun p => p.1 == k then d.map fun p => if p.1 == k then (k, v) else p
  else d ++ [(k, v)]

/-- The flush performed when a new commit line (or end of input) is seen:
joins the message lines (stripped) and diff lines and stores the record.
(The Python guard `if current_hash and current_data:` always holds when a
record is pending: the hash is a 40-character match and `current_data` is a
non-empty dict.) -/
def finalizeRecord (p : PartialData) : CommitData :=
  { author_name := p.author_name, author_email := p.author_email, date := p.date,
    message := pyStrip (joinLinesNL p.message), diff := joinLinesNL p.diff }

/-- Flush the pending record, if any, into the commits dict. -/
def flushCur (commits : List (String × CommitData))
    (cur : Option (String × PartialData)) : List (String × CommitData) :=
  match cur with
  | none => commits
  | some (h, p) => dictInsert h (finalizeRecord p) commits

/-- One iteration of the `for line in lines:` loop of
`parse_git_log_to_dict` (lines 243-282). -/
def stepLine (st : ParseState) (line : String) : ParseState :=
  match matchCommit line with
  | some h =>
    { commits := flushCur st.commits st.cur, cur := some (h, emptyPartial),
      mode := .header }
  | none =>
    match st.cur with
    | none => st
    | some (h, p) =>
      match st.mode with
      | .header =>
        match matchAuthor line with
        | some nm =>
          { st with cur := some (h,
              { p with author_name := some nm.1, author_email := some nm.2 }) }
        | none =>
          match matchDate line with
          | some ds =>
            { st with cur := some (h, { p with date := some ds }), mode := .message }
          | none => st
      | .message =>
        if matchDiffStart line then
          { st with cur := some (h, { p with diff := p.diff ++ [line] }), mode := .diff }
        else { st with cur := some (h, { p with message := p.message ++ [line] }) }
      | .diff =>
        { st with cur := some (h, { p with diff := p.diff ++ [line] }) }

/-- Initial loop state (`commits = {}`, `current_hash = None`,
`state = "HEADER"`). -/
def initState : ParseState := ⟨[], none, .header⟩

/-- The final flush after the loop (lines 284-287). -/
def finishParse (st : ParseState) : List (String × CommitData) :=
  flushCur st.commits st.cur

/-- The parsing loop run over a given line list. -/
def parseLines (lines : List String) : List (String × CommitData) :=
  finishParse (lines.foldl stepLine initState)

/-- Embedding of `parse_git_log_to_dict` (lines 217-289). -/
def parse_git_log_to_dict (s : String) : List (String × CommitData) :=
  parseLines (pySplitlinesStr s)

theorem stepLine_in_diff_mode (st : ParseState) (l : String)
    (h : String) (p : PartialData)
    (hcur : st.cur = some (h, p)) (hmode : st.mode = PMode.diff)
    (hnc : matchCommit l = none) :
    stepLine st l = { st with cur := some (h, { p with diff := p.diff ++ [l] }) } := by
  obtain ⟨commits, cur, mode⟩ := st
  simp only at hcur hmode
  subst hcur
  subst hmode
  simp [stepLine, hnc]

/-- C10: once the parser is in the DIFF state with a pending record, any
further line that is not a commit line — the batch section headers
`--- History for lines a-b ---` and per-range error text included — is
appended to that record's diff, so it ends up inside the previous record's
diff string. -/
theorem c10_diff_state_absorbs_next_line (lines : List String) (l : String)
    (h : String) (p : PartialData)
    (hcur : (lines.foldl stepLine initState).cur = some (h, p))
    (hmode : (lines.foldl stepLine initState).mode = PMode.diff)
    (hnc : matchCommit l = none) :
    parseLines (lines ++ [l]) =
      dictInsert h (finalizeRecord { p with diff := p.diff ++ [l] })
        (lines.foldl stepLine initState).commits ∧
      (finalizeRecord { p with diff := p.diff ++ [l] }).diff =
        joinLinesNL (p.diff ++ [l]) := by
  constructor
  · unfold parseLines
    rw [List.foldl_append]
    simp only [List.foldl_cons, List.foldl_nil]
    rw [stepLine_in_diff_mode _ l h p hcur hmode hnc]
    rfl
  · rfl

/-- Concrete single-range git-log lines leaving the parser in the DIFF
state (used by the C10 witness). -/
def c10Lines : List String :=
  ["commit aaaaaaaaaaaaaaaaaaaaaaaaaaaaaaaaaaaaaaaa",
   "Author: Test User <test@example.com>",
   "Date:   Fri Jan 11 20:23:51 2026 +0100",
   "",
   "    Initial commit",
   "diff --git a/f.py b/f.py"]

theorem c10_witness :
    parseLines (c10Lines ++ ["--- History for lines 10-12 ---"]) =
      dictInsert "aaaaaaaaaaaaaaaaaaaaaaaaaaaaaaaaaaaaaaaa"
        (finalizeRecord
          { author_name := some "Test User", author_email := some "test@example.com",
            date := some "Fri Jan 11 20:23:51 2026 +0100",
            message := ["", "    Initial commit"],
            diff := ["diff --git a/f.py b/f.py", "--- History for lines 10-12 ---"] })
        [] :=
  (c10_diff_state_absorbs_next_line c10Lines "--- History for lines 10-12 ---"
    "aaaaaaaaaaaaaaaaaaaaaaaaaaaaaaaaaaaaaaaa"
    { author_name := some "Test User", author_email := some "test@example.com",
      date := some "Fri Jan 11 20:23:51 2026 +0100",
      message := ["", "    Initial commit"],
      diff := ["diff --git a/f.py b/f.py"] }
    rfl rfl rfl).1

/-! Datetime layer.  `datetime` values are either timezone-naive (only
`datetime.min` occurs) or timezone-aware (produced by `strptime` with `%z`);
aware values are stored as UTC-normalised seconds counted from the naive
epoch `0001-01-01 00:00:00`, which is exactly the instant Python compares.
Order comparison between a naive and an aware datetime raises `TypeError`. -/
inductive PyDateTime where
  | naive (v : Int)
  | aware (v : Int)
  deriving DecidableEq, Repr

/-- `datetime.min.replace(tzinfo=None)`: naive `0001-01-01 00:00:00`. -/
def pyDatetimeMin : PyDateTime := .naive 0

/-- Python `>` on datetimes: mixed naive/aware comparison raises `TypeError`
(modelled as `Except.error ()`); otherwise instants are compared. -/
def pyGT : PyDateTime → PyDateTime → Except Unit Bool
  | .naive a, .naive b => .ok (decide (b < a))
  | .aware a, .aware b => .ok (decide (b < a))
  | _, _ => .error ()

/-- One-or-more whitespace (the `\s+` produced by a space in an `strptime`
format): requires a leading whitespace character and swallows the run. -/
def takeWs1 : List Char → Option (List Char)
  | c :: rest => if isPyWs c then some (rest.dropWhile isPyWs) else none
  | [] => none

/-- `%a`: an abbreviated weekday name, case-insensitively. -/
def takeWeekday : List Char → Option (List Char)
  | c1 :: c2 :: c3 :: rest =>
    if ["mon", "tue", "wed", "thu", "fri", "sat", "sun"].contains
        (String.mk [c1.toLower, c2.toLower, c3.toLower]) then some rest
    else none
  | _ => none

/-- Month number of an abbreviated month name (lower-cased). -/
def monthNum (w : String) : Option Nat :=
  [("jan", 1), ("feb", 2), ("mar", 3), ("apr", 4), ("may", 5), ("jun", 6),
   ("jul", 7), ("aug", 8), ("sep", 9), ("oct", 10), ("nov", 11),
   ("dec", 12)].lookup w

/-- `%b`: an abbreviated month name, case-insensitively. -/
def takeMonth : List Char → Option (Nat × List Char)
  | c1 :: c2 :: c3 :: rest =>
    match monthNum (String.mk [c1.toLower, c2.toLower, c3.toLower]) with
    | some m => some (m, rest)
    | none => none
  | _ => none

/-- Numeric value of a digit character. -/
def digitVal (c : Char) : Nat := c.toNat - 48

/-- `%d` (day): two digits valued 1-31, or a single digit 1-9.  The regex
alternation `3[01]|[12]\d|0[1-9]|[1-9]` matches exactly the two-digit values
1-31; a one-digit fallback before another digit fails at the following
whitespace token, so it is rejected here directly. -/
def takeDay : List Char → Option (Nat × List Char)
  | c1 :: c2 :: rest =>
    if c1.isDigit && c2.isDigit then
      let v := digitVal c1 * 10 + digitVal c2
      if 1 ≤ v ∧ v ≤ 31 then some (v, rest) else none
    else if c1.isDigit then
      if 1 ≤ digitVal c1 then some (digitVal c1, c2 :: rest) else none
    else none
  | [c1] => if c1.isDigit && decide (1 ≤ digitVal c1) then some (digitVal c1, []) else none
  | [] => none

/-- `%H` (hour): two digits 00-23, or one digit. -/
def takeHour : List Char → Option (Nat × List Char)
  | c1 :: c2 :: rest =>
    if c1.isDigit && c2.isDigit then
      let v := digitVal c1 * 10 + digitVal c2
      if v ≤ 23 then some (v, rest) else none
    else if c1.isDigit then some (digitVal c1, c2 :: rest)
    else none
  | [c1] => if c1.isDigit then some (digitVal c1, []) else none
  | [] => none

/-- `%M` (minute): two digits 00-59, or one digit. -/
def takeMinute : List Char → Option (Nat × List Char)
  | c1 :: c2 :: rest =>
    if c1.isDigit && c2.isDigit then
      let v := digitVal c1 * 10 + digitVal c2
      if v ≤ 59 then some (v, rest) else none
    else if c1.isDigit then some (digitVal c1, c2 :: rest)
    else none
  | [c1] => if c1.isDigit then some (digitVal c1, []) else none
  | [] => none

/-- `%S` (second): two digits 00-61 (the regex admits leap seconds), or one
digit. -/
def takeSecond : List Char → Option (Nat × List Char)
  | c1 :: c2 :: rest =>
    if c1.isDigit && c2.isDigit then
      let v := digitVal c1 * 10 + digitVal c2
      if v ≤ 61 then some (v, rest) else none
    else if c1.isDigit then some (digitVal c1, c2 :: rest)
    else none
  | [c1] => if c1.isDigit then some (digitVal c1, []) else none
  | [] => none

/-- A single literal character of the format. -/
def expectChar (c : Char) : List Char → Option (List Char)
  | x :: rest => if x = c then some rest else none
  | [] => none

/-- `%Y`: exactly four digits. -/
def take4Digits : List Char → Option (Nat × List Char)
  | c1 :: c2 :: c3 :: c4 :: rest =>
    if c1.isDigit && c2.isDigit && c3.isDigit && c4.isDigit then
      some (digitVal c1 * 1000 + digitVal c2 * 100 + digitVal c3 * 10 + digitVal c4, rest)
    else none
  | _ => none

/-- `%z`: `Z` (UTC) or a sign, a two-digit hour, an optional colon and a
two-digit minute 00-59; yields the offset in seconds.  (The optional seconds
and fractional forms the CPython regex also admits never occur in git's
default date format and are not modelled.) -/
def takeTz : List Char → Option (Int × List Char)
  | 'Z' :: rest => some (0, rest)
  | c :: h1 :: h2 :: rest2 =>
    if (c = '+' || c = '-') && h1.isDigit && h2.isDigit then
      let hh := digitVal h1 * 10 + digitVal h2
      let rest3 := match rest2 with
        | ':' :: r => r
        | _ => rest2
      match rest3 with
      | m1 :: m2 :: rest4 =>
        if m1.isDigit && m2.isDigit then
          let mm := digitVal m1 * 10 + digitVal m2
          if mm ≤ 59 then
            let off : Int := (hh * 3600 + mm * 60 : Nat)
            some (if c = '-' then -off else off, rest4)
          else none
        else none
      | _ => none
    else none
  | _ => none

/-- Proleptic-Gregorian leap year. -/
def isLeapYear (y : Nat) : Bool := (y % 4 == 0 && y % 100 != 0) || y % 400 == 0

/-- Days in a month. -/
def daysInMonth (y m : Nat) : Nat :=
  match m with
  | 2 => if isLeapYear y then 29 else 28
  | 4 => 30
  | 6 => 30
  | 9 => 30
  | 11 => 30
  | _ => 31

/-- Days in the months before month `m` of year `y`. -/
def daysBeforeMonth (y m : Nat) : Nat :=
  (List.range (m - 1)).foldl (fun acc i => acc + daysInMonth y (i + 1)) 0

/-- Days before January 1st of year `y`, counted from `0001-01-01`
(the `datetime.toordinal` convention minus one). -/
def daysBeforeYear (y : Nat) : Nat :=
  365 * (y - 1) + (y - 1) / 4 - (y - 1) / 100 + (y - 1) / 400

/-- Embedding of
`datetime.strptime(date_str, "%a %b %d %H:%M:%S %Y %z")` for git's default
date format (code_inspector.py line 311): returns the UTC-normalised
instant in seconds from `0001-01-01 00:00:00`, or `none` for the
`ValueError` cases (no regex match, trailing characters, an invalid
calendar date or a leap second rejected by the `datetime` constructor, or
an offset of a day or more rejected by `timezone`). -/
def parseGitDate (s : String) : Option Int :=
  match takeWeekday s.data with
  | none => none
  | some l1 =>
  match takeWs1 l1 with
  | none => none
  | some l2 =>
  match takeMonth l2 with
  | none => none
  | some (mo, l3) =>
  match takeWs1 l3 with
  | none => none
  | some l4 =>
  match takeDay l4 with
  | none => none
  | some (d, l5) =>
  match takeWs1 l5 with
  | none => none
  | some l6 =>
  match takeHour l6 with
  | none => none
  | some (hh, l7) =>
  match expectChar ':' l7 with
  | none => none
  | some l8 =>
  match takeMinute l8 with
  | none => none
  | some (mi, l9) =>
  match expectChar ':' l9 with
  | none => none
  | some l10 =>
  match takeSecond l10 with
  | none => none
  | some (ss, l11) =>
  match takeWs1 l11 with
  | none => none
  | some l12 =>
  match take4Digits l12 with
  | none => none
  | some (yr, l13) =>
  match takeWs1 l13 with
  | none => none
  | some l14 =>
  match takeTz l14 with
  | none => none
  | some (off, l15) =>
  if l15 = [] ∧ 1 ≤ yr ∧ d ≤ daysInMonth yr mo ∧ hh ≤ 23 ∧ mi ≤ 59 ∧ ss ≤ 59 ∧
      off.natAbs < 86400 then
    some (((daysBeforeYear yr + daysBeforeMonth yr mo + (d - 1)) * 86400 +
      hh * 3600 + mi * 60 + ss : Nat) - off)
  else none

/-- Embedding of `_get_latest_commit_info` (lines 295-317): the empty dict
yields the naive sentinel `datetime.min` with an empty hash; otherwise the
first (newest) entry's date string is parsed — a parse failure
(`ValueError`, caught) degrades to the sentinel while keeping the hash.  A
record whose date is `None` makes `strptime` raise `TypeError`, which the
`except ValueError` does not catch (modelled as `Except.error ()`). -/
def get_latest_commit_info (history : List (String × CommitData)) :
    Except Unit (PyDateTime × String) :=
  match history with
  | [] => .ok (pyDatetimeMin, "")
  | (h, r) :: _ =>
    match r.date with
    | none => .error ()
    | some ds =>
      match parseGitDate ds with
      | some v => .ok (.aware v, h)
      | none => .ok (pyDatetimeMin, h)

/-- The Rule-A warning text (lines 347-350); note the code interpolates
`hash_sig`, not `hash_body`. -/
def ruleAWarning (h : String) : String :=
  "Check the docstring or function, as the body was updated. (Body commit: " ++ h ++ ")"

/-- The Rule-B warning text (lines 355-358). -/
def ruleBWarning (h : String) : String :=
  "Check the docstring, as the signature was updated. (Signature commit: " ++ h ++ ")"

/-- The comparison-and-warning part of `check_function_consistency`
(lines 342-360), taking the three `(date, hash)` pairs in the order
signature, docstring, body.  Python's short-circuiting `and` is preserved:
when `date_body > date_sig` is false the second Rule-A comparison is never
evaluated. -/
def check_from_info (sig doc body : PyDateTime × String) :
    Except Unit (List String) := do
  let a1 ← pyGT body.1 sig.1
  let condA ← if a1 then pyGT body.1 doc.1 else pure false
  let warnA := if condA then [ruleAWarning sig.2] else []
  let condB ← pyGT sig.1 doc.1
  let warnB := if condB then [ruleBWarning sig.2] else []
  pure (warnA ++ warnB)

/-- Embedding of `check_function_consistency` (lines 319-360) from the three
raw git-log texts onward (the `git log` invocations themselves are the
process boundary; everything after them is deterministic in the three
strings). -/
def check_function_consistency (rawSig rawDoc rawBody : String) :
    Except Unit (List String) := do
  let infoSig ← get_latest_commit_info (parse_git_log_to_dict rawSig)
  let infoDoc ← get_latest_commit_info (parse_git_log_to_dict rawDoc)
  let infoBody ← get_latest_commit_info (parse_git_log_to_dict rawBody)
  check_from_info infoSig infoDoc infoBody

/-- C7: `_get_latest_commit_info` on the empty mapping returns the
minimum-timestamp sentinel and an empty hash; on a non-empty mapping whose
first record carries a date string it depends only on that first entry:
an unparsable date degrades to the sentinel paired with the found hash
rather than raising, and a parsable one yields its aware timestamp with the
hash. -/
theorem c7_latest_revision (h : String) (r : CommitData)
    (rest : List (String × CommitData)) (ds : String) (hdate : r.date = some ds) :
    get_latest_commit_info [] = .ok (pyDatetimeMin, "") ∧
      get_latest_commit_info ((h, r) :: rest) = get_latest_commit_info [(h, r)] ∧
      (parseGitDate ds = none →
        get_latest_commit_info ((h, r) :: rest) = .ok (pyDatetimeMin, h)) ∧
      (∀ v, parseGitDate ds = some v →
        get_latest_commit_info ((h, r) :: rest) = .ok (.aware v, h)) := by
  refine ⟨rfl, ?_, ?_, ?_⟩
  · unfold get_latest_commit_info
    rfl
  · intro hparse
    simp [get_latest_commit_info, hdate, hparse]
  · intro v hparse
    simp [get_latest_commit_info, hdate, hparse]

/-- A record whose date string does not parse (C7 witness data). -/
def c7BadRecord : CommitData :=
  { author_name := some "A", author_email := some "a@b", date := some "bad date",
    message := "m", diff := "d" }

theorem c7_witness :
    get_latest_commit_info
      [("aaaaaaaaaaaaaaaaaaaaaaaaaaaaaaaaaaaaaaaa", c7BadRecord),
       ("bbbbbbbbbbbbbbbbbbbbbbbbbbbbbbbbbbbbbbbb", c7BadRecord)] =
      .ok (pyDatetimeMin, "aaaaaaaaaaaaaaaaaaaaaaaaaaaaaaaaaaaaaaaa") :=
  (c7_latest_revision "aaaaaaaaaaaaaaaaaaaaaaaaaaaaaaaaaaaaaaaa" c7BadRecord
    [("bbbbbbbbbbbbbbbbbbbbbbbbbbbbbbbbbbbbbbbb", c7BadRecord)]
    "bad date" rfl).2.2.1 rfl

/-- C5: with three aware timestamps, the warning list is exactly: the Rule-A
warning when the body's instant strictly exceeds both others, followed by
the Rule-B warning when the signature's instant strictly exceeds the
docstring's; the rules fire independently, equal timestamps never fire a
rule, and both warnings cite the signature category's hash. -/
theorem c5_rules (vs vd vb : Int) (hs hd hb : String) :
    check_from_info (.aware vs, hs) (.aware vd, hd) (.aware vb, hb) =
      .ok ((if vs < vb ∧ vd < vb then [ruleAWarning hs] else []) ++
        (if vd < vs then [ruleBWarning hs] else [])) := by
  unfold check_from_info pyGT
  by_cases h1 : vs < vb <;> by_cases h2 : vd < vb <;> by_cases h3 : vd < vs <;>
    simp [h1, h2, h3, pure, Except.pure, bind, Except.bind]

/-- Raw signature-category git log used by the C1 failing input: one commit
with a parsable date. -/
def c1RawSig : String :=
  "commit aaaaaaaaaaaaaaaaaaaaaaaaaaaaaaaaaaaaaaaa\n" ++
  "Author: Test User <test@example.com>\n" ++
  "Date:   Fri Jan 11 20:23:51 2026 +0100\n" ++
  "\n" ++
  "    Update signature\n" ++
  "diff --git a/f.py b/f.py\n" ++
  "+x"

/-- Raw docstring/body-category output when no ranges exist
(`_run_git_log_L` returns this sentinel): parses to an empty mapping. -/
def c1RawEmpty : String := "No lines found to analyze."

/-- C1 failing input: the docstring and body categories have no history
(naive sentinel `datetime.min`), the signature category has a real parsed
(timezone-aware) date; the first Rule-A comparison `date_body > date_sig`
then raises `TypeError` (offset-naive vs offset-aware), so
`check_function_consistency` raises instead of returning a warning list. -/
theorem c1_mixed_sentinel_raises :
    check_function_consistency c1RawSig c1RawEmpty c1RawEmpty = .error () := by
  rfl

/-! C9: idempotence of the history parser under trivial re-serialization. -/

/-- Modelled from the spec: the commit-hash line of the trivial
reconstruction (the repository has no serializer; spec section 8 prescribes
re-serializing a parsed mapping via hash/author/date/message headers plus
diff, in mapping order). -/
def commitLine (h : String) : String := "commit " ++ h

/-- Modelled from the spec: the Author line of the trivial reconstruction. -/
def authorLine (n e : String) : String := "Author: " ++ n ++ " <" ++ e ++ ">"

/-- Modelled from the spec: the Date line of the trivial reconstruction
(three spaces after the colon, the shape of spec section 6). -/
def dateLine (ds : String) : String := "Date:   " ++ ds

/-- Modelled from the spec: the lines of one reconstructed record —
commit-hash line, Author line, Date line, message lines, diff lines. -/
def recordLines (h : String) (r : CommitData) : List String :=
  [commitLine h, authorLine (r.author_name.getD "") (r.author_email.getD ""),
    dateLine (r.date.getD "")] ++
    splitLinesNL r.message ++ splitLinesNL r.diff

/-- Modelled from the spec: the trivial reconstruction of a parsed mapping,
record blocks in mapping order joined by newlines. -/
def serializeMapping (m : List (String × CommitData)) : String :=
  joinLinesNL (m.flatMap fun p => recordLines p.1 p.2)

/-- No line-break characters occur in the string. -/
@[reducible]
def noLBs (s : String) : Prop := ∀ c ∈ s.data, isLineBreak c = false

/-- Well-formed revision record, following the history shape of spec
section 6: a 40-hex hash; present, stripped, break-free author name, email
(angle-bracket-free) and date; a stripped message whose lines are free of
record markers; a non-empty diff starting with a diff marker whose lines
contain no commit marker. -/
@[reducible]
def wfRecord (h : String) (r : CommitData) : Prop :=
  h.length = 40 ∧ (∀ c ∈ h.data, isHexLower c = true) ∧
    r.author_name.isSome = true ∧ r.author_email.isSome = true ∧
    r.date.isSome = true ∧
    (r.author_name.getD "" ≠ "" ∧ pyStrip (r.author_name.getD "") = r.author_name.getD "" ∧
      noLBs (r.author_name.getD "")) ∧
    (r.author_email.getD "" ≠ "" ∧ pyStrip (r.author_email.getD "") = r.author_email.getD "" ∧
      noLBs (r.author_email.getD "") ∧ '<' ∉ (r.author_email.getD "").data ∧
      '>' ∉ (r.author_email.getD "").data) ∧
    (r.date.getD "" ≠ "" ∧ pyStrip (r.date.getD "") = r.date.getD "" ∧
      noLBs (r.date.getD "")) ∧
    pyStrip r.message = r.message ∧
    (∀ l ∈ splitLinesNL r.message,
      noLBs l ∧ matchCommit l = none ∧ matchDiffStart l = false) ∧
    r.diff ≠ "" ∧ matchDiffStart ((splitLinesNL r.diff).headD "") = true ∧
    (∀ l ∈ splitLinesNL r.diff, noLBs l ∧ matchCommit l = none)

/-- Well-formed parsed mapping: well-formed records, distinct hashes, and a
reconstruction that does not end in an empty line (the diff of the last
record does not end with a newline) — a trailing empty line is the one
spot where `splitlines` of the reconstruction loses information. -/
@[reducible]
def wfMapping (m : List (String × CommitData)) : Prop :=
  (∀ p ∈ m, wfRecord p.1 p.2) ∧ (m.map Prod.fst).Nodup ∧
    (m.getLast?.all fun p => (splitLinesNL p.2.diff).getLast? != some "") = true

/-- The pending `current_data` corresponding to a finished record whose
diff is non-empty: fields set, message and diff re-split into lines. -/
def partialOf (r : CommitData) : PartialData :=
  ⟨r.author_name, r.author_email, r.date, splitLinesNL r.message, splitLinesNL r.diff⟩

theorem splitOnNLGo_ne_nil (l acc : List Char) : splitOnNLGo acc l ≠ [] := by
  induction l generalizing acc with
  | nil => simp [splitOnNLGo]
  | cons c rest ih =>
    unfold splitOnNLGo
    by_cases h : c = '\n' <;> simp [h, ih]

theorem joinNL_splitOnNLGo (l acc : List Char) :
    joinNL (splitOnNLGo acc l) = acc.reverse ++ l := by
  induction l generalizing acc with
  | nil => simp [splitOnNLGo, joinNL]
  | cons c rest ih =>
    unfold splitOnNLGo
    by_cases h : c = '\n'
    · simp only [h, if_true]
      have hrec := ih ([] : List Char)
      simp only [List.reverse_nil, List.nil_append] at hrec
      obtain ⟨x, xs, hx⟩ : ∃ x xs, splitOnNLGo ([] : List Char) rest = x :: xs := by
        cases hsp : splitOnNLGo ([] : List Char) rest with
        | nil => exact absurd hsp (splitOnNLGo_ne_nil rest [])
        | cons x xs => exact ⟨x, xs, rfl⟩
      rw [hx] at hrec ⊢
      rw [show joinNL (acc.reverse :: x :: xs) =
        acc.reverse ++ '\n' :: joinNL (x :: xs) from rfl, hrec]
    · simp only [h, if_false]
      rw [ih]
      simp

theorem joinLinesNL_splitLinesNL (s : String) : joinLinesNL (splitLinesNL s) = s := by
  unfold joinLinesNL splitLinesNL splitOnNL
  rw [List.map_map]
  have hmaps : ∀ (ls : List (List Char)), (ls.map (String.data ∘ String.mk)) = ls := by
    intro ls
    induction ls with
    | nil => rfl
    | cons x xs ih => simp [ih]
  rw [hmaps, joinNL_splitOnNLGo]
  cases s
  rfl

theorem splitLinesNL_ne_nil (s : String) : splitLinesNL s ≠ [] := by
  unfold splitLinesNL splitOnNL
  intro hcon
  exact splitOnNLGo_ne_nil s.data [] (by simpa using hcon)

theorem go_cons_nonLB (c : Char) (hc : isLineBreak c = false) (acc l : List Char) :
    pySplitlinesGo acc (c :: l) = pySplitlinesGo (c :: acc) l := by
  rw [pySplitlinesGo.eq_def]
  simp [hc]

theorem go_cons_nl (acc l : List Char) :
    pySplitlinesGo acc ('\n' :: l) =
      match l with
      | [] => [acc.reverse]
      | r2 :: rest2 => acc.reverse :: pySplitlinesGo [] (r2 :: rest2) := by
  rw [pySplitlinesGo.eq_def]
  cases l with
  | nil => simp [isLineBreak]
  | cons r2 rest2 =>
    have h1 : isLineBreak '\n' = true := by decide
    have h2 : (('\n' : Char) = '\r' : Bool) = false := by decide
    simp only [h1, if_true, h2, Bool.false_and, Bool.false_eq_true, if_false]

theorem go_noLB (l : List Char) (hl : ∀ c ∈ l, isLineBreak c = false)
    (acc : List Char) : pySplitlinesGo acc l = [acc.reverse ++ l] := by
  induction l generalizing acc with
  | nil => simp [pySplitlinesGo]
  | cons c rest ih =>
    rw [go_cons_nonLB c (hl c (List.mem_cons_self c rest)) acc rest,
      ih (fun c2 hc2 => hl c2 (List.mem_cons_of_mem c hc2))]
    simp

theorem go_append_nl (l : List Char) (hl : ∀ c ∈ l, isLineBreak c = false)
    (rest : List Char) (hrest : rest ≠ []) (acc : List Char) :
    pySplitlinesGo acc (l ++ '\n' :: rest) =
      (acc.reverse ++ l) :: pySplitlinesGo [] rest := by
  induction l generalizing acc with
  | nil =>
    rw [List.nil_append, go_cons_nl]
    cases rest with
    | nil => exact absurd rfl hrest
    | cons r2 rest2 => simp
  | cons c l2 ih =>
    rw [List.cons_append, go_cons_nonLB c (hl c (List.mem_cons_self c l2)) acc,
      ih (fun c2 hc2 => hl c2 (List.mem_cons_of_mem c hc2))]
    simp

theorem joinNL_eq_nil (x : List Char) (xs : List (List Char))
    (h : joinNL (x :: xs) = []) : x = [] ∧ xs = [] := by
  cases xs with
  | nil => exact ⟨h, rfl⟩
  | cons y ys =>
    rw [show joinNL (x :: y :: ys) = x ++ '\n' :: joinNL (y :: ys) from rfl] at h
    rcases List.append_eq_nil.mp h with ⟨_, h2⟩
    exact absurd h2 (by simp)

theorem pySplitlines_of_ne_nil (x : List Char) (hx : x ≠ []) :
    pySplitlines x = pySplitlinesGo [] x := by
  cases x with
  | nil => exact absurd rfl hx
  | cons c cs => rfl

theorem pySplitlines_joinNL (lines : List (List Char)) (hne : lines ≠ [])
    (hnl : ∀ l ∈ lines, ∀ c ∈ l, isLineBreak c = false)
    (hlast : lines.getLast? ≠ some []) :
    pySplitlines (joinNL lines) = lines := by
  induction lines with
  | nil => exact absurd rfl hne
  | cons l rest ih =>
    cases rest with
    | nil =>
      have hl : l ≠ [] := by
        intro hcon
        exact hlast (by rw [hcon]; rfl)
      rw [show joinNL [l] = l from rfl, pySplitlines_of_ne_nil l hl,
        go_noLB l (hnl l (List.mem_cons_self l [])) []]
      simp
    | cons l2 rest2 =>
      have htail : joinNL (l2 :: rest2) ≠ [] := by
        intro hcon
        obtain ⟨h1, h2⟩ := joinNL_eq_nil l2 rest2 hcon
        subst h2
        exact hlast (by rw [h1]; rfl)
      have hl : ∀ c ∈ l, isLineBreak c = false :=
        hnl l (List.mem_cons_self l (l2 :: rest2))
      have hjoin : joinNL (l :: l2 :: rest2) = l ++ '\n' :: joinNL (l2 :: rest2) := rfl
      have hwhole : joinNL (l :: l2 :: rest2) ≠ [] := by
        rw [hjoin]
        intro hcon
        rcases List.append_eq_nil.mp hcon with ⟨_, h2⟩
        exact absurd h2 (by simp)
      rw [pySplitlines_of_ne_nil _ hwhole, hjoin, go_append_nl l hl _ htail []]
      have hih := ih (by simp)
        (fun x hx => hnl x (List.mem_cons_of_mem l hx))
        (by
          intro hcon
          apply hlast
          rwa [List.getLast?_cons_cons])
      rw [pySplitlines_of_ne_nil _ htail] at hih
      rw [hih]
      simp

theorem pySplitlinesStr_joinLinesNL (lines : List String) (hne : lines ≠ [])
    (hnl : ∀ l ∈ lines, noLBs l) (hlast : lines.getLast? ≠ some "") :
    pySplitlinesStr (joinLinesNL lines) = lines := by
  unfold pySplitlinesStr joinLinesNL
  have hdata : (String.mk (joinNL (lines.map String.data))).data =
      joinNL (lines.map String.data) := rfl
  rw [hdata, pySplitlines_joinNL (lines.map String.data)
    (by simpa using hne)
    (by
      intro l hlm c hc
      obtain ⟨s, hs, hsd⟩ := List.mem_map.mp hlm
      exact hnl s hs c (by rw [hsd]; exact hc))
    (by
      rw [List.getLast?_map]
      intro hcon
      cases hl : lines.getLast? with
      | none => rw [hl] at hcon; exact Option.noConfusion hcon
      | some s =>
        rw [hl] at hcon
        have hsd : s.data = [] := Option.some.inj hcon
        apply hlast
        rw [hl]
        cases s with
        | mk d =>
          simp only at hsd
          rw [hsd])]
  rw [List.map_map]
  have hid : ∀ (ls : List String), ls.map (String.mk ∘ String.data) = ls := by
    intro ls
    induction ls with
    | nil => rfl
    | cons x xs ihx => simp [ihx]
  exact hid lines

theorem data_ne_nil (s : String) (h : s ≠ "") : s.data ≠ [] := by
  cases s with
  | mk d =>
    intro hc
    simp only at hc
    subst hc
    exact h rfl

theorem pyStripL_of_stripped (s : String) (h : pyStrip s = s) :
    pyStripL s.data = s.data :=
  congrArg String.data h

theorem pyStripL_cons_ws (c : Char) (hc : isPyWs c = true) (l : List Char) :
    pyStripL (c :: l) = pyStripL l := by
  unfold pyStripL
  rw [List.dropWhile_cons_of_pos hc]

theorem ws_not_hexLower (c : Char) (h : isPyWs c = true) : isHexLower c = false := by
  unfold isPyWs at h
  simp only [Bool.or_eq_true, decide_eq_true_eq] at h
  rcases h with ((((rfl | rfl) | rfl) | rfl) | rfl) | rfl <;> decide

theorem lb_not_hexLower (c : Char) (h : isLineBreak c = true) : isHexLower c = false := by
  unfold isLineBreak at h
  simp only [Bool.or_eq_true, decide_eq_true_eq] at h
  rcases h with
    ((((((((rfl | rfl) | rfl) | rfl) | rfl) | rfl) | rfl) | rfl) | rfl) | rfl <;> decide

theorem hexLower_not_ws (c : Char) (h : isHexLower c = true) : isPyWs c = false := by
  cases hw : isPyWs c
  · rfl
  · rw [ws_not_hexLower c hw] at h
    exact Bool.noConfusion h

theorem hexLower_not_LB (c : Char) (h : isHexLower c = true) : isLineBreak c = false := by
  cases hw : isLineBreak c
  · rfl
  · rw [lb_not_hexLower c hw] at h
    exact Bool.noConfusion h

theorem splitAtLastChar_of_not_mem (c : Char) (l : List Char) (h : c ∉ l) :
    splitAtLastChar c l = none := by
  induction l with
  | nil => rfl
  | cons x xs ih =>
    unfold splitAtLastChar
    rw [ih (fun hx => h (List.mem_cons_of_mem x hx))]
    have hxc : ¬(x = c) := fun hxc => h (hxc ▸ List.mem_cons_self x xs)
    simp [hxc]

theorem splitAtLastChar_last (c : Char) (p q : List Char) (h : c ∉ q) :
    splitAtLastChar c (p ++ c :: q) = some (p, q) := by
  induction p with
  | nil =>
    rw [List.nil_append]
    unfold splitAtLastChar
    rw [splitAtLastChar_of_not_mem c q h]
    simp
  | cons x xs ih =>
    rw [List.cons_append]
    unfold splitAtLastChar
    rw [ih]

theorem takeHexN_exact (n : Nat) (cs : List Char) (hlen : cs.length = n)
    (hhex : ∀ c ∈ cs, isHexLower c = true) : takeHexN n cs = some (cs, []) := by
  induction n generalizing cs with
  | zero =>
    cases cs with
    | nil => rfl
    | cons c cs2 => simp at hlen
  | succ k ih =>
    cases cs with
    | nil => simp at hlen
    | cons c cs2 =>
      unfold takeHexN
      rw [hhex c (List.mem_cons_self c cs2)]
      rw [ih cs2 (by simpa using hlen) (fun x hx => hhex x (List.mem_cons_of_mem c hx))]
      simp

theorem matchCommit_commitLine (h : String) (h40 : h.length = 40)
    (hhex : ∀ c ∈ h.data, isHexLower c = true) :
    matchCommit (commitLine h) = some h := by
  have hdrop : h.data.dropWhile isPyWs = h.data := by
    cases hd : h.data with
    | nil => rfl
    | cons c cs =>
      refine List.dropWhile_cons_of_neg ?_
      rw [hexLower_not_ws c (hhex c (by rw [hd]; exact List.mem_cons_self c cs))]
      simp
  show Option.map String.mk
      (match takeHexN 40 (h.data.dropWhile isPyWs) with
        | some (hex, _) => some hex
        | none => none) = some h
  rw [hdrop, takeHexN_exact 40 h.data h40 hhex]
  show some (String.mk h.data) = some h
  cases h
  rfl

theorem matchCommit_authorLine (n e : String) :
    matchCommit (authorLine n e) = none := rfl

theorem matchCommit_dateLine (ds : String) :
    matchCommit (dateLine ds) = none := rfl

theorem matchAuthor_dateLine (ds : String) :
    matchAuthor (dateLine ds) = none := rfl

theorem isEmpty_false_of_ne_nil (l : List Char) (h : l ≠ []) : l.isEmpty = false := by
  cases l with
  | nil => exact absurd rfl h
  | cons x xs => rfl

theorem matchAuthorCore_eq (u : List Char) (p q : List Char)
    (hsplit : splitAtLastChar '<' u = some (p, q)) :
    matchAuthorCore u =
      (if decide (3 ≤ p.length) && (p.head?.elim false isPyWs) &&
          (p.getLast?.elim false isPyWs) then
        match splitAtLastChar '>' q with
        | some (g2, _) =>
          if g2.isEmpty then none
          else some (String.mk (pyStripL ((p.drop 1).dropLast)), String.mk (pyStripL g2))
        | none => none
      else none) := by
  unfold matchAuthorCore
  rw [hsplit]

theorem matchAuthor_authorLine (n e : String)
    (hn : n ≠ "") (hnstrip : pyStrip n = n)
    (he : e ≠ "") (hestrip : pyStrip e = e)
    (hlt : '<' ∉ e.data) :
    matchAuthor (authorLine n e) = some (n, e) := by
  have hnne : n.data ≠ [] := data_ne_nil n hn
  have hene : e.data ≠ [] := data_ne_nil e he
  have hstep : matchAuthor (authorLine n e) =
      matchAuthorCore (((' ' :: n.data) ++ [' ']) ++ '<' :: (e.data ++ ['>'])) := by
    show matchAuthorCore (' ' :: (((n.data ++ [' ', '<']) ++ e.data) ++ ['>'])) =
      matchAuthorCore (((' ' :: n.data) ++ [' ']) ++ '<' :: (e.data ++ ['>']))
    congr 1
    simp
  rw [hstep, matchAuthorCore_eq _ ((' ' :: n.data) ++ [' ']) (e.data ++ ['>'])
    (splitAtLastChar_last '<' _ _ (by
      intro hmem
      rcases List.mem_append.mp hmem with hm | hm
      · exact hlt hm
      · simp at hm))]
  have hlen : 3 ≤ ((' ' :: n.data) ++ [' ']).length := by
    simp only [List.length_append, List.length_cons]
    cases hd : n.data with
    | nil => exact absurd hd hnne
    | cons c cs => simp
  have hhead : ((' ' :: n.data) ++ [' ']).head?.elim false isPyWs = true := rfl
  have hlast2 : ((' ' :: n.data) ++ [' ']).getLast?.elim false isPyWs = true := by
    rw [show (' ' :: n.data) ++ [' '] = (' ' :: n.data) ++ [' '] from rfl,
      List.getLast?_concat]
    rfl
  rw [decide_eq_true hlen, hhead, hlast2]
  simp only [Bool.and_self, if_true]
  rw [show e.data ++ ['>'] = e.data ++ '>' :: [] from rfl,
    splitAtLastChar_last '>' e.data [] (by simp)]
  show (if e.data.isEmpty = true then none
    else some (String.mk (pyStripL ((((' ' :: n.data) ++ [' ']).drop 1).dropLast)),
      String.mk (pyStripL e.data))) = some (n, e)
  rw [isEmpty_false_of_ne_nil e.data hene]
  simp only [Bool.false_eq_true, if_false]
  rw [show ((' ' :: n.data) ++ [' ']).drop 1 = n.data ++ [' '] from rfl,
    List.dropLast_concat, pyStripL_of_stripped n hnstrip,
    pyStripL_of_stripped e hestrip]

theorem matchDate_dateLine (ds : String) (hstrip : pyStrip ds = ds) :
    matchDate (dateLine ds) = some ds := by
  show some (String.mk (pyStripL (' ' :: ' ' :: ds.data))) = some ds
  rw [pyStripL_cons_ws ' ' rfl, pyStripL_cons_ws ' ' rfl,
    pyStripL_of_stripped ds hstrip]

theorem stepLine_commit_any (st : ParseState) (l : String) (hsh : String)
    (hc : matchCommit l = some hsh) :
    stepLine st l = ⟨flushCur st.commits st.cur, some (hsh, emptyPartial), .header⟩ := by
  simp [stepLine, hc]

theorem stepLine_header_author (C : List (String × CommitData)) (h : String)
    (p : PartialData) (l : String) (nm em : String)
    (hnc : matchCommit l = none) (ha : matchAuthor l = some (nm, em)) :
    stepLine ⟨C, some (h, p), .header⟩ l =
      ⟨C, some (h, { p with author_name := some nm, author_email := some em }),
        .header⟩ := by
  simp [stepLine, hnc, ha]

theorem stepLine_header_date (C : List (String × CommitData)) (h : String)
    (p : PartialData) (l : String) (ds : String)
    (hnc : matchCommit l = none) (hna : matchAuthor l = none)
    (hd : matchDate l = some ds) :
    stepLine ⟨C, some (h, p), .header⟩ l =
      ⟨C, some (h, { p with date := some ds }), .message⟩ := by
  simp [stepLine, hnc, hna, hd]

theorem stepLine_message_append (C : List (String × CommitData)) (h : String)
    (p : PartialData) (ml : String)
    (hnc : matchCommit ml = none) (hnd : matchDiffStart ml = false) :
    stepLine ⟨C, some (h, p), .message⟩ ml =
      ⟨C, some (h, { p with message := p.message ++ [ml] }), .message⟩ := by
  simp [stepLine, hnc, hnd]

theorem stepLine_message_diffstart (C : List (String × CommitData)) (h : String)
    (p : PartialData) (dl : String)
    (hnc : matchCommit dl = none) (hds : matchDiffStart dl = true) :
    stepLine ⟨C, some (h, p), .message⟩ dl =
      ⟨C, some (h, { p with diff := p.diff ++ [dl] }), .diff⟩ := by
  simp [stepLine, hnc, hds]

theorem stepLine_diff_append (C : List (String × CommitData)) (h : String)
    (p : PartialData) (dl : String) (hnc : matchCommit dl = none) :
    stepLine ⟨C, some (h, p), .diff⟩ dl =
      ⟨C, some (h, { p with diff := p.diff ++ [dl] }), .diff⟩ := by
  simp [stepLine, hnc]

theorem foldl_message_lines (mls : List String)
    (hm : ∀ l ∈ mls, matchCommit l = none ∧ matchDiffStart l = false)
    (C : List (String × CommitData)) (h : String) (p : PartialData) :
    List.foldl stepLine ⟨C, some (h, p), .message⟩ mls =
      ⟨C, some (h, { p with message := p.message ++ mls }), .message⟩ := by
  induction mls generalizing p with
  | nil => simp
  | cons ml rest ih =>
    rw [List.foldl_cons,
      stepLine_message_append C h p ml
        (hm ml (List.mem_cons_self ml rest)).1 (hm ml (List.mem_cons_self ml rest)).2,
      ih (fun l hl => hm l (List.mem_cons_of_mem ml hl))]
    simp

theorem foldl_diff_lines (dls : List String)
    (hm : ∀ l ∈ dls, matchCommit l = none)
    (C : List (String × CommitData)) (h : String) (p : PartialData) :
    List.foldl stepLine ⟨C, some (h, p), .diff⟩ dls =
      ⟨C, some (h, { p with diff := p.diff ++ dls }), .diff⟩ := by
  induction dls generalizing p with
  | nil => simp
  | cons dl rest ih =>
    rw [List.foldl_cons,
      stepLine_diff_append C h p dl (hm dl (List.mem_cons_self dl rest)),
      ih (fun l hl => hm l (List.mem_cons_of_mem dl hl))]
    simp

theorem foldl_recordLines (st : ParseState) (h : String) (r : CommitData)
    (hwf : wfRecord h r) :
    List.foldl stepLine st (recordLines h r) =
      ⟨flushCur st.commits st.cur, some (h, partialOf r), .diff⟩ := by
  obtain ⟨h40, hhex, hnameS, hemailS, hdateS, ⟨hn1, hn2, hn3⟩,
    ⟨he1, he2, he3, he4, he5⟩, ⟨hd1, hd2, hd3⟩, hmsg, hmsgl, hdne, hdfirst, hdl⟩ := hwf
  obtain ⟨nv, hnv⟩ := Option.isSome_iff_exists.mp hnameS
  obtain ⟨ev, hev⟩ := Option.isSome_iff_exists.mp hemailS
  obtain ⟨dv, hdv⟩ := Option.isSome_iff_exists.mp hdateS
  rw [hnv] at hn1 hn2 hn3
  rw [hev] at he1 he2 he3 he4 he5
  rw [hdv] at hd1 hd2 hd3
  simp only [Option.getD_some] at hn1 hn2 hn3 he1 he2 he3 he4 he5 hd1 hd2 hd3
  obtain ⟨dl0, dls, hdsplit⟩ : ∃ dl0 dls, splitLinesNL r.diff = dl0 :: dls := by
    cases hc : splitLinesNL r.diff with
    | nil => exact absurd hc (splitLinesNL_ne_nil r.diff)
    | cons x xs => exact ⟨x, xs, rfl⟩
  have hrl : recordLines h r = commitLine h :: authorLine nv ev :: dateLine dv ::
      (splitLinesNL r.message ++ (dl0 :: dls)) := by
    unfold recordLines
    rw [hnv, hev, hdv, hdsplit]
    simp
  rw [hrl, List.foldl_cons, stepLine_commit_any st _ h (matchCommit_commitLine h h40 hhex),
    List.foldl_cons,
    stepLine_header_author _ h emptyPartial _ nv ev (matchCommit_authorLine nv ev)
      (matchAuthor_authorLine nv ev hn1 hn2 he1 he2 he4),
    List.foldl_cons,
    stepLine_header_date _ h _ _ dv (matchCommit_dateLine dv) (matchAuthor_dateLine dv)
      (matchDate_dateLine dv hd2),
    List.foldl_append,
    foldl_message_lines (splitLinesNL r.message)
      (fun l hl => ⟨(hmsgl l hl).2.1, (hmsgl l hl).2.2⟩) _ h _,
    List.foldl_cons,
    stepLine_message_diffstart _ h _ dl0
      ((hdl dl0 (by rw [hdsplit]; exact List.mem_cons_self dl0 dls)).2)
      (by rw [hdsplit] at hdfirst; exact hdfirst),
    foldl_diff_lines dls
      (fun l hl => (hdl l (by rw [hdsplit]; exact List.mem_cons_of_mem dl0 hl)).2) _ h _]
  have hpart : partialOf r =
      ⟨some nv, some ev, some dv, [] ++ splitLinesNL r.message, [] ++ [dl0] ++ dls⟩ := by
    unfold partialOf
    rw [hnv, hev, hdv, hdsplit]
    simp
  rw [hpart]
  simp [emptyPartial]

theorem finalize_partialOf (r : CommitData) (hmsg : pyStrip r.message = r.message) :
    finalizeRecord (partialOf r) = r := by
  unfold finalizeRecord partialOf
  cases r with
  | mk an ae d msg df =>
    simp only at hmsg ⊢
    rw [joinLinesNL_splitLinesNL, joinLinesNL_splitLinesNL, hmsg]

theorem dictInsert_fresh (k : String) (v : CommitData)
    (d : List (String × CommitData)) (h : k ∉ d.map Prod.fst) :
    dictInsert k v d = d ++ [(k, v)] := by
  unfold dictInsert
  have hany : (d.any fun p => p.1 == k) = false := by
    rw [List.any_eq_false]
    intro x hx
    simp only [beq_iff_eq]
    intro hk
    exact h (List.mem_map.mpr ⟨x, hx, hk⟩)
  rw [hany]
  simp

theorem parse_blocks (m : List (String × CommitData)) :
    ∀ (st : ParseState),
      (∀ p ∈ m, wfRecord p.1 p.2) → (m.map Prod.fst).Nodup →
      (∀ k ∈ m.map Prod.fst, k ∉ (finishParse st).map Prod.fst) →
      finishParse (List.foldl stepLine st (m.flatMap fun p => recordLines p.1 p.2)) =
        finishParse st ++ m := by
  induction m with
  | nil =>
    intro st _ _ _
    simp
  | cons hr m' ih =>
    intro st hwf hnd hfresh
    obtain ⟨h, r⟩ := hr
    have hwfhr := hwf (h, r) (List.mem_cons_self _ _)
    rw [List.flatMap_cons, List.foldl_append, foldl_recordLines st h r hwfhr]
    have hmsg : pyStrip r.message = r.message := hwfhr.2.2.2.2.2.2.2.2.1
    have hstep : finishParse ⟨flushCur st.commits st.cur, some (h, partialOf r), .diff⟩ =
        finishParse st ++ [(h, r)] := by
      show flushCur (flushCur st.commits st.cur) (some (h, partialOf r)) = _
      show dictInsert h (finalizeRecord (partialOf r)) (finishParse st) = _
      rw [finalize_partialOf r hmsg,
        dictInsert_fresh h r (finishParse st)
          (hfresh h (by simp))]
    have hnds : (h :: m'.map Prod.fst).Nodup := by
      simpa only [List.map_cons] using hnd
    have hfresh2 : ∀ k ∈ m'.map Prod.fst,
        k ∉ (finishParse ⟨flushCur st.commits st.cur,
          some (h, partialOf r), .diff⟩).map Prod.fst := by
      intro k hk
      rw [hstep]
      rw [List.map_append]
      intro hmem
      rcases List.mem_append.mp hmem with hm | hm
      · exact hfresh k (by simp only [List.map_cons]; exact List.mem_cons_of_mem _ hk) hm
      · simp only [List.map_cons, List.map_nil, List.mem_singleton] at hm
        subst hm
        exact (List.nodup_cons.mp hnds).1 hk
    rw [ih _ (fun p hp => hwf p (List.mem_cons_of_mem _ hp))
      ((List.nodup_cons.mp hnds).2) hfresh2, hstep]
    simp

theorem getLast?_append_of_ne_nil {α : Type} (l l' : List α) (h : l' ≠ []) :
    (l ++ l').getLast? = l'.getLast? := by
  rw [List.getLast?_append]
  cases hx : l'.getLast? with
  | none => exact absurd (List.getLast?_eq_none_iff.mp hx) h
  | some x => rfl

theorem noLBs_append (s t : String) (hs : noLBs s) (ht : noLBs t) : noLBs (s ++ t) := by
  intro c hc
  rw [String.data_append] at hc
  rcases List.mem_append.mp hc with hm | hm
  · exact hs c hm
  · exact ht c hm

theorem recordLines_noLBs (h : String) (r : CommitData) (hwf : wfRecord h r) :
    ∀ l ∈ recordLines h r, noLBs l := by
  obtain ⟨h40, hhex, hnameS, hemailS, hdateS, ⟨hn1, hn2, hn3⟩,
    ⟨he1, he2, he3, he4, he5⟩, ⟨hd1, hd2, hd3⟩, hmsg, hmsgl, hdne, hdfirst, hdl⟩ := hwf
  intro l hl
  unfold recordLines at hl
  simp only [List.cons_append, List.nil_append, List.mem_cons, List.mem_append] at hl
  rcases hl with rfl | rfl | rfl | hm | hm
  · exact noLBs_append _ _ (by decide) (fun c hc => hexLower_not_LB c (hhex c hc))
  · exact noLBs_append _ _
      (noLBs_append _ _
        (noLBs_append _ _ (noLBs_append _ _ (by decide) hn3) (by decide)) he3)
      (by decide)
  · exact noLBs_append _ _ (by decide) hd3
  · exact (hmsgl l hm).1
  · exact (hdl l hm).1

theorem recordLines_ne_nil (h : String) (r : CommitData) : recordLines h r ≠ [] := by
  unfold recordLines
  simp

theorem recordLines_getLast? (h : String) (r : CommitData) :
    (recordLines h r).getLast? = (splitLinesNL r.diff).getLast? := by
  unfold recordLines
  rw [getLast?_append_of_ne_nil _ _ (splitLinesNL_ne_nil r.diff)]

theorem flatMap_recordLines_getLast? (m : List (String × CommitData))
    (p : String × CommitData) (hl : m.getLast? = some p) :
    (m.flatMap fun q => recordLines q.1 q.2).getLast? =
      (recordLines p.1 p.2).getLast? := by
  induction m with
  | nil => exact Option.noConfusion hl
  | cons q m' ih =>
    cases m' with
    | nil =>
      have hqp : q = p := by
        have : some q = some p := hl
        exact Option.some.inj this
      subst hqp
      simp
    | cons q2 m'' =>
      rw [List.getLast?_cons_cons] at hl
      rw [List.flatMap_cons,
        getLast?_append_of_ne_nil _ _ (by
          rw [List.flatMap_cons]
          intro hcon
          exact recordLines_ne_nil q2.1 q2.2 (List.append_eq_nil.mp hcon).1),
        ih hl]

theorem parse_serialize_roundtrip (m : List (String × CommitData))
    (hwf : wfMapping m) : parse_git_log_to_dict (serializeMapping m) = m := by
  obtain ⟨hrecs, hnodup, hlast⟩ := hwf
  cases m with
  | nil => rfl
  | cons p0 m' =>
    show parseLines (pySplitlinesStr (joinLinesNL
      ((p0 :: m').flatMap fun p => recordLines p.1 p.2))) = p0 :: m'
    obtain ⟨pl, hpl⟩ : ∃ pl, (p0 :: m').getLast? = some pl := by
      cases hgl : (p0 :: m').getLast? with
      | none => exact absurd (List.getLast?_eq_none_iff.mp hgl) (by simp)
      | some x => exact ⟨x, rfl⟩
    have hplast : (splitLinesNL pl.2.diff).getLast? ≠ some "" := by
      rw [hpl] at hlast
      have : ((splitLinesNL pl.2.diff).getLast? != some "") = true := by
        simpa [Option.all] using hlast
      exact bne_iff_ne.mp this
    rw [pySplitlinesStr_joinLinesNL _
      (by
        rw [List.flatMap_cons]
        intro hcon
        exact recordLines_ne_nil p0.1 p0.2 (List.append_eq_nil.mp hcon).1)
      (by
        intro l hl
        obtain ⟨q, hq, hlq⟩ := List.mem_flatMap.mp hl
        exact recordLines_noLBs q.1 q.2 (hrecs q hq) l hlq)
      (by
        rw [flatMap_recordLines_getLast? _ pl hpl, recordLines_getLast?]
        exact hplast)]
    unfold parseLines
    rw [parse_blocks (p0 :: m') initState hrecs hnodup (by
      intro k _
      simp [finishParse, flushCur, initState])]
    rfl

/-- C9: the history parser is idempotent on well-formed input — parsing a
text whose parse is a well-formed mapping (present stripped header fields,
marker-free message lines, a marker-led diff per record, distinct hashes,
no trailing empty line in the reconstruction), re-serializing each record by
trivial reconstruction in mapping order, and parsing again yields the same
mapping. -/
theorem c9_parser_idempotent (t : String)
    (hwf : wfMapping (parse_git_log_to_dict t)) :
    parse_git_log_to_dict (serializeMapping (parse_git_log_to_dict t)) =
      parse_git_log_to_dict t :=
  parse_serialize_roundtrip _ hwf

/-- A concrete well-formed one-commit history text (C9 witness data). -/
def c9LogText : String :=
  "commit cccccccccccccccccccccccccccccccccccccccc\n" ++
  "Author: Ada L <ada@example.com>\n" ++
  "Date:   Sat Feb 07 10:00:00 2026 +0000\n" ++
  "\n" ++
  "    Fix body\n" ++
  "diff --git a/m.py b/m.py\n" ++
  "+y"

theorem c9_witness :
    wfMapping (parse_git_log_to_dict c9LogText) ∧
      parse_git_log_to_dict (serializeMapping (parse_git_log_to_dict c9LogText)) =
        parse_git_log_to_dict c9LogText :=
  ⟨by decide, c9_parser_idempotent c9LogText (by decide)⟩

end CodeInspector

